import Mathlib

/-- LSP-style position: 0-based line and character. -/
structure Position where
  line : Nat
  character : Nat
deriving DecidableEq, Repr

/-- A source range; `stop` models the TypeScript field `end`
(a reserved word in Lean). -/
structure Range where
  start : Position
  stop : Position
deriving DecidableEq, Repr

/-- Value carried by a `LiteralNode`: string, number, boolean or null. -/
inductive LitValue where
  | lstr (s : String)
  | lnum (n : Int)
  | lbool (b : Bool)
  | lnull
deriving DecidableEq, Repr

/-- The AST node type of `utilities/astTypes.ts`: a tagged union of
Symbol, Literal and List nodes, each carrying an optional `position` range. -/
inductive HQLNode where
  | symbol (name : String) (position : Option Range)
  | literal (value : LitValue) (position : Option Range)
  | list (elements : List HQLNode) (isArrayLiteral : Bool) (position : Option Range)

namespace HQLNode

/-- The optional `position` field common to all node variants. -/
def position : HQLNode → Option Range
  | .symbol _ p => p
  | .literal _ p => p
  | .list _ _ p => p

end HQLNode

/-- `Map.get`: first binding of the key, if any. -/
def mapGet {α : Type} (m : List (String × α)) (k : String) : Option α :=
  (m.find? (fun e => e.1 = k)).map (fun e => e.2)

/-- `Map.has`. -/
def mapHas {α : Type} (m : List (String × α)) (k : String) : Bool :=
  (m.find? (fun e => e.1 = k)).isSome

/-- `Map.set`: overwrite the binding in place if the key exists,
otherwise append the new binding (JavaScript `Map` iteration order). -/
def mapSet {α : Type} (m : List (String × α)) (k : String) (v : α) : List (String × α) :=
  match m with
  | [] => [(k, v)]
  | e :: rest => if e.1 = k then (k, v) :: rest else e :: mapSet rest k v

/-- Update the value stored at a key (no-op when the key is absent);
models mutating an object previously obtained with `Map.get`. -/
def mapUpdate {α : Type} (m : List (String × α)) (k : String) (f : α → α) : List (String × α) :=
  m.map (fun e => if e.1 = k then (e.1, f e.2) else e)

/-- `Set.add`: append the element unless it is already present. -/
def setAdd (s : List String) (x : String) : List String :=
  if x ∈ s then s else s ++ [x]

/-- The index state: the position-keyed node map plus the three
secondary indices maintained by `ASTIndex`. -/
structure ASTIndex where
  nodesByPosition : List (String × HQLNode)
  symbolNodes : List (String × List HQLNode)
  listNodes : List HQLNode
  literalNodes : List HQLNode

namespace ASTIndex

/-- `ASTIndex.clear()` / the freshly-constructed index. -/
def empty : ASTIndex := ⟨[], [], [], []⟩

/-- `rangeToKey`: the string key `start.line:start.character-end.line:end.character`. -/
def rangeToKey (r : Range) : String :=
  toString r.start.line ++ ":" ++ toString r.start.character ++ "-" ++
    toString r.stop.line ++ ":" ++ toString r.stop.character

/-- `indexNode`: skip nodes without position; otherwise record the node under
its range key and feed the type-specific secondary indices. -/
def indexNode (idx : ASTIndex) (n : HQLNode) : ASTIndex :=
  match n.position with
  | none => idx
  | some r =>
    let idx1 := { idx with nodesByPosition := mapSet idx.nodesByPosition (rangeToKey r) n }
    match n with
    | .symbol name _ =>
      let prev := (mapGet idx1.symbolNodes name).getD []
      { idx1 with symbolNodes := mapSet idx1.symbolNodes name (prev ++ [n]) }
    | .literal _ _ => { idx1 with literalNodes := idx1.literalNodes ++ [n] }
    | .list _ _ _ => idx1

mutual

/-- `walkAST` on a single node: index it, then recurse into list elements
(recording the list in `listNodes` first, as the source does). -/
def walkOne (idx : ASTIndex) (n : HQLNode) : ASTIndex :=
  let idx1 := indexNode idx n
  match n with
  | .list es b p => walkList { idx1 with listNodes := idx1.listNodes ++ [.list es b p] } es
  | _ => idx1

/-- `walkAST` on an array of nodes. -/
def walkList (idx : ASTIndex) (ns : List HQLNode) : ASTIndex :=
  match ns with
  | [] => idx
  | n :: rest => walkList (walkOne idx n) rest

end

/-- `ASTIndex.build`: clear, then walk the AST (no-op walk on a null AST). -/
def build (ast : Option (List HQLNode)) : ASTIndex :=
  match ast with
  | none => empty
  | some ns => walkList empty ns

/-- `isPositionInRange`: false when the position is strictly before the start
or strictly after the end (lexicographic on line, then character). -/
def isPositionInRange (p : Position) (r : Range) : Bool :=
  if p.line < r.start.line ∨ (p.line = r.start.line ∧ p.character < r.start.character) then
    false
  else if r.stop.line < p.line ∨ (p.line = r.stop.line ∧ r.stop.character < p.character) then
    false
  else
    true

/-- `rangeSize`: character width for a single-line range, otherwise
`1000 × line-span + end.character` (an `Int`, as the character arithmetic
is signed in JavaScript). -/
def rangeSize (r : Range) : Int :=
  if r.start.line = r.stop.line then
    (r.stop.character : Int) - (r.start.character : Int)
  else
    ((r.stop.line : Int) - (r.start.line : Int)) * 1000 + (r.stop.character : Int)

/-- One step of the best-match scan of `getNodeAtPosition`. -/
def bestStep (p : Position) (best : Option (HQLNode × Int)) (e : String × HQLNode) :
    Option (HQLNode × Int) :=
  match e.2.position with
  | none => best
  | some r =>
    if isPositionInRange p r then
      let size := rangeSize r
      match best with
      | none => some (e.2, size)
      | some (_, bs) => if size < bs then some (e.2, size) else best
    else best

/-- `getNodeAtPosition`: scan all indexed nodes, keeping the smallest range
containing the position. -/
def getNodeAtPosition (idx : ASTIndex) (p : Position) : Option HQLNode :=
  (idx.nodesByPosition.foldl (bestStep p) none).map (fun b => b.1)

/-- `findNodes`: the indexed nodes (map iteration order) satisfying the predicate. -/
def findNodes (p : HQLNode → Bool) (idx : ASTIndex) : List HQLNode :=
  (idx.nodesByPosition.map (fun e => e.2)).filter p

/-- The nodes stored in the position map, in iteration order. -/
def values (idx : ASTIndex) : List HQLNode :=
  idx.nodesByPosition.map (fun e => e.2)

end ASTIndex

/-! ### Index contents after a build (claim C3) -/

mutual

/-- The nodes of a subtree in the order `walkAST` visits them. -/
def preorder : HQLNode → List HQLNode
  | .symbol s p => [.symbol s p]
  | .literal v p => [.literal v p]
  | .list es b p => .list es b p :: preorderList es

/-- `preorder` extended to a forest. -/
def preorderList : List HQLNode → List HQLNode
  | [] => []
  | n :: rest => preorder n ++ preorderList rest

end

/-- The ranged nodes of an AST, in visit order. -/
def rangedNodes (ns : List HQLNode) : List HQLNode :=
  (preorderList ns).filter (fun n => n.position.isSome)

/-- The effect of `indexNode` on the position map alone. -/
def posInsert (m : List (String × HQLNode)) (n : HQLNode) : List (String × HQLNode) :=
  match n.position with
  | some r => mapSet m (ASTIndex.rangeToKey r) n
  | none => m

/-- The (key, node) pairs a walk would insert, in visit order. -/
def rangedEntries (l : List HQLNode) : List (String × HQLNode) :=
  l.filterMap (fun n => n.position.map (fun r => (ASTIndex.rangeToKey r, n)))

/-- C3 counterexample input: two distinct ranged nodes with identical ranges. -/
def dupAst : List HQLNode :=
  [.symbol "a" (some ⟨⟨0, 0⟩, ⟨0, 1⟩⟩), .symbol "b" (some ⟨⟨0, 0⟩, ⟨0, 1⟩⟩)]

/-- Witness for C3 (amended) at a concrete AST with distinct range keys. -/
def distinctAst : List HQLNode :=
  [.symbol "a" (some ⟨⟨0, 0⟩, ⟨0, 1⟩⟩), .symbol "b" (some ⟨⟨0, 2⟩, ⟨0, 3⟩⟩)]

/-- The scanning loop of `getLineOffsets`: walks the characters tracking the
current offset `i` and the `isLineStart` flag, collecting line-start offsets;
a `\r\n` pair is consumed as a single terminator. Returns the collected
offsets and the final `isLineStart` flag. -/
def lineOffsGo : List Char → Nat → Bool → List Nat × Bool
  | [], _, ls => ([], ls)
  | '\r' :: '\n' :: rest2, i, ls =>
    let t := lineOffsGo rest2 (i + 2) true
    ((if ls then [i] else []) ++ t.1, t.2)
  | c :: rest, i, ls =>
    let t := lineOffsGo rest (i + 1) (decide (c = '\r' ∨ c = '\n'))
    ((if ls then [i] else []) ++ t.1, t.2)

/-- `HQLDocument.getLineOffsets`: line-start offsets of the text, with a final
entry at `text.length` when the text is nonempty and ends in a terminator. -/
def getLineOffsets (t : List Char) : List Nat :=
  let g := lineOffsGo t 0 true
  if g.2 = true ∧ 0 < t.length then g.1 ++ [t.length] else g.1

/-- The `while (low < high)` binary-search loop of `positionAt` (upper bound
search), with an explicit fuel argument bounding the iteration count. -/
def ubSearchGo : Nat → Nat → Nat → List Nat → Nat → Nat
  | 0, low, _, _, _ => low
  | fuel + 1, low, high, offs, target =>
    if low < high then
      if target < offs.getD ((low + high) / 2) 0 then
        ubSearchGo fuel low ((low + high) / 2) offs target
      else ubSearchGo fuel (((low + high) / 2) + 1) high offs target
    else low

/-- `HQLDocument.positionAt`: clamp the offset, binary-search the greatest
line start not exceeding it. -/
def positionAt (t : List Char) (o : Nat) : Position :=
  let o2 := min o t.length
  let offs := getLineOffsets t
  if offs.length = 0 then ⟨0, o2⟩
  else
    let low := ubSearchGo offs.length 0 offs.length offs o2
    ⟨low - 1, o2 - offs.getD (low - 1) 0⟩

/-- `HQLDocument.offsetAt`: overlong lines return the text length; otherwise
the line start plus the character, capped at the next line's start (text
length for the last line). The `position.line < 0` branch of the source is
unreachable here because LSP positions are unsigned. -/
def offsetAt (t : List Char) (p : Position) : Nat :=
  let offs := getLineOffsets t
  if offs.length ≤ p.line then t.length
  else
    let lineOffset := offs.getD p.line 0
    let next := if p.line + 1 < offs.length then offs.getD (p.line + 1) 0 else t.length
    min (lineOffset + p.character) next

/-- A position is valid for a text when its line exists and its global offset
(line start + character) falls inside that line's span: strictly before the
next line's start, or anywhere up to the end of the text on the last line. -/
def ValidPosition (t : List Char) (p : Position) : Prop :=
  p.line < (getLineOffsets t).length ∧
    (getLineOffsets t).getD p.line 0 + p.character <
      (if p.line + 1 < (getLineOffsets t).length
       then (getLineOffsets t).getD (p.line + 1) 0
       else t.length + 1)

instance (t : List Char) (p : Position) : Decidable (ValidPosition t p) := by
  unfold ValidPosition
  infer_instance

/-- Modelled from the spec: the formula claim C5 asserts for `offsetAt` — clamp
the line into `[0, lineCount)`, add the character to that line's start offset,
and cap the sum at the next line's start (text length when there is no next
line); 0 when the document has no lines. Written for comparison with the
source's `offsetAt`. -/
def offsetAtClaimed (t : List Char) (p : Position) : Nat :=
  if (getLineOffsets t).length = 0 then 0
  else
    min ((getLineOffsets t).getD (min p.line ((getLineOffsets t).length - 1)) 0 + p.character)
      (if min p.line ((getLineOffsets t).length - 1) + 1 < (getLineOffsets t).length
       then (getLineOffsets t).getD (min p.line ((getLineOffsets t).length - 1) + 1) 0
       else t.length)

/-- A two-line sample text, `abc\ndef`. -/
def sampleText : List Char := ['a', 'b', 'c', '\n', 'd', 'e', 'f']

/-- The `kind` field of a `SymbolInfo`. -/
inductive SymbolKind where
  | kVariable
  | kFunction
  | kEnum
  | kEnumValue
  | kParameter
deriving DecidableEq, Repr

/-- One entry of a function's `params` array (shape produced by
`HQLDocument.extractFunctionParams`). -/
structure Param where
  name : String
  type : Option String
  defaultValue : Option HQLNode
  isNamed : Bool

/-- `SymbolInfo` of `utilities/symbolTable.ts`. -/
structure SymbolInfo where
  name : String
  kind : SymbolKind
  node : HQLNode
  parentScope : Option String
  type : Option String
  params : Option (List Param)
  enumValues : Option (List String)
  references : List HQLNode

/-- The `SymbolTable` state: the flat symbol map, the scope-membership map
and the single current-scope field. -/
structure SymbolTable where
  symbols : List (String × SymbolInfo)
  scopes : List (String × List String)
  currentScope : Option String

namespace SymbolTable

/-- Freshly constructed / cleared table. -/
def empty : SymbolTable := ⟨[], [], none⟩

/-- `enterScope`: no-op on a falsy name; otherwise set the current scope and
create its (empty) membership set if absent. -/
def enterScope (t : SymbolTable) (scopeName : String) : SymbolTable :=
  if scopeName = "" then t
  else
    { t with
      currentScope := some scopeName,
      scopes := if mapHas t.scopes scopeName then t.scopes
                else mapSet t.scopes scopeName [] }

/-- `exitScope`: clears the current scope (it does not restore any previous one). -/
def exitScope (t : SymbolTable) : SymbolTable := { t with currentScope := none }

/-- `const s = this.scopes.get(scopeName); if (s) s.add(key)`. -/
def scopeAddIfPresent (t : SymbolTable) (scopeName key : String) : SymbolTable :=
  if mapHas t.scopes scopeName then
    { t with scopes := mapUpdate t.scopes scopeName (fun s => setAdd s key) }
  else t

/-- `addVariable`. -/
def addVariable (t : SymbolTable) (name : String) (node : HQLNode)
    (type : Option String) : SymbolTable :=
  let info : SymbolInfo := ⟨name, .kVariable, node, t.currentScope, type, none, none, []⟩
  let t1 := { t with symbols := mapSet t.symbols name info }
  match t.currentScope with
  | some cs => scopeAddIfPresent t1 cs name
  | none => t1

/-- `addParameter`: no-op on a falsy scope; stores the entry under
`scope.name` with a synthetic position-less symbol node. -/
def addParameter (t : SymbolTable) (name : String) (type : Option String)
    (scopeName : String) : SymbolTable :=
  if scopeName = "" then t
  else
    let info : SymbolInfo :=
      ⟨name, .kParameter, HQLNode.symbol name none, some scopeName, type, none, none, []⟩
    let scopedName := scopeName ++ "." ++ name
    let t1 := { t with symbols := mapSet t.symbols scopedName info }
    scopeAddIfPresent t1 scopeName scopedName

/-- `addFunction`: record the function, enter its own scope, register its
parameters there, exit, then attempt the (dead) membership update for the
then-current scope. -/
def addFunction (t : SymbolTable) (name : String) (params : List Param)
    (returnType : Option String) (node : HQLNode) : SymbolTable :=
  let info : SymbolInfo :=
    ⟨name, .kFunction, node, t.currentScope, returnType, some params, none, []⟩
  let t1 := { t with symbols := mapSet t.symbols name info }
  let t2 := enterScope t1 name
  let t3 := params.foldl (fun acc p => addParameter acc p.name p.type name) t2
  let t4 := exitScope t3
  match t4.currentScope with
  | some cs => scopeAddIfPresent t4 cs name
  | none => t4

/-- `addEnumValue` (private): store under `enumName.valueName`. -/
def addEnumValue (t : SymbolTable) (enumName valueName : String)
    (node : HQLNode) : SymbolTable :=
  let info : SymbolInfo := ⟨valueName, .kEnumValue, node, some enumName, none, none, none, []⟩
  { t with symbols := mapSet t.symbols (enumName ++ "." ++ valueName) info }

/-- `addEnum`. -/
def addEnum (t : SymbolTable) (name : String) (values : List String)
    (node : HQLNode) : SymbolTable :=
  let info : SymbolInfo := ⟨name, .kEnum, node, t.currentScope, none, none, some values, []⟩
  let t1 := { t with symbols := mapSet t.symbols name info }
  let t2 := values.foldl (fun acc v => addEnumValue acc name v node) t1
  match t2.currentScope with
  | some cs => scopeAddIfPresent t2 cs name
  | none => t2

/-- The enum-value fallback scan of `findSymbol`: first enum whose value list
contains the name; the result is whatever is stored under `enumName.name`. -/
def enumScan (t : SymbolTable) (name : String) : Option (String × SymbolInfo) :=
  match t.symbols.find?
      (fun e => decide (e.2.kind = SymbolKind.kEnum ∧ name ∈ e.2.enumValues.getD [])) with
  | some e => (mapGet t.symbols (e.2.name ++ "." ++ name)).map
      (fun info => (e.2.name ++ "." ++ name, info))
  | none => none

/-- `findSymbol`, returning the map key alongside the entry (the key models
which stored object the source's returned reference aliases). -/
def findSymbolEntry (t : SymbolTable) (name : String) : Option (String × SymbolInfo) :=
  match mapGet t.symbols name with
  | some info => some (name, info)
  | none =>
    match t.currentScope with
    | some cs =>
      match mapGet t.symbols (cs ++ "." ++ name) with
      | some info => some (cs ++ "." ++ name, info)
      | none => enumScan t name
    | none => enumScan t name

/-- `addReference` on the entry stored at a key: push the node onto that
entry's references (the source mutates the object returned by `findSymbol`). -/
def addReferenceAt (t : SymbolTable) (key : String) (node : HQLNode) : SymbolTable :=
  let pushRef := fun (info : SymbolInfo) => { info with references := info.references ++ [node] }
  { t with symbols := mapUpdate t.symbols key pushRef }

end SymbolTable

/-- Is the optional node a Symbol with the given name? -/
def isSymNamed (o : Option HQLNode) (s : String) : Bool :=
  match o with
  | some (.symbol n _) => n = s
  | _ => false

/-- The name of the optional node when it is a Symbol. -/
def symNameOpt (o : Option HQLNode) : Option String :=
  match o with
  | some (.symbol n _) => some n
  | _ => none

/-- Is the optional node a List? -/
def isListOpt (o : Option HQLNode) : Bool :=
  match o with
  | some (.list _ _ _) => true
  | _ => false

/-- The name of a Symbol node. -/
def symNameOf (n : HQLNode) : Option String :=
  match n with
  | .symbol s _ => some s
  | _ => none

/-- `HQLDocument.isSpecialSymbol`: the built-in exclusion list. -/
def isSpecialSymbol (name : String) : Bool :=
  name ∈ ["def", "defn", "fn", "if", "cond", "let", "for", "print", "str",
    "vector", "list", "hash-map", "keyword", "new", "get", "set",
    "return", "import", "export", "defenum", "->",
    "+", "-", "*", "/", "<", ">", "<=", ">=", "=", "!=",
    "true", "false", "null", "nil", ":", "."]

/-- `name.endsWith(':')` for the single-character suffix, expressed on the
character list (the kernel-reducible equivalent of `String.endsWith`). -/
def endsWithColon (s : String) : Bool := s.data.getLast? = some ':'

/-- The scan loop of `extractFunctionParams`: `i` is the loop index, the fuel
bounds the iteration count (the source's `for` loop advances `i` by at least
one per iteration). -/
def extractGo : Nat → List HQLNode → Nat → List Param
  | 0, _, _ => []
  | fuel + 1, es, i =>
    match es.get? i with
    | some (.symbol nm _) =>
      let isNamed := endsWithColon nm
      let pname := if isNamed then nm.dropRight 1 else nm
      if i + 2 < es.length ∧ isSymNamed (es.get? (i + 1)) ":" then
        let ptype := symNameOpt (es.get? (i + 2))
        if i + 4 < es.length ∧ isSymNamed (es.get? (i + 3)) "=" then
          ⟨pname, ptype, es.get? (i + 4), isNamed⟩ :: extractGo fuel es (i + 5)
        else
          ⟨pname, ptype, none, isNamed⟩ :: extractGo fuel es (i + 3)
      else if i + 2 < es.length ∧ isSymNamed (es.get? (i + 1)) "=" then
        ⟨pname, none, es.get? (i + 2), isNamed⟩ :: extractGo fuel es (i + 3)
      else
        ⟨pname, none, none, isNamed⟩ :: extractGo fuel es (i + 1)
    | some _ => extractGo fuel es (i + 1)
    | none => []

/-- `HQLDocument.extractFunctionParams`: scan a parameter-list node; a trailing
`:` marks a named parameter, a following `: Type` pair declares a type, a
following `= expr` pair supplies a default. Non-list inputs have no
`elements` and yield no parameters. -/
def extractFunctionParams (paramsNode : HQLNode) : List Param :=
  match paramsNode with
  | .list es _ _ => extractGo (es.length + 1) es 0
  | _ => []

/-- `HQLDocument.isDefOrDefnNode`. -/
def isDefOrDefnNode (n : HQLNode) : Bool :=
  match n with
  | .list es _ _ =>
    decide (es.length ≥ 2) &&
      (match es.get? 0 with
       | some (.symbol s _) => decide (s = "def" ∨ s = "defn" ∨ s = "defenum")
       | _ => false)
  | _ => false

/-- `HQLDocument.processDefinition`: register a `def` variable, a `defn`
function (with extracted parameters and optional `-> ReturnType`), or a
`defenum` with its Symbol-typed values. -/
def processDefinition (t : SymbolTable) (n : HQLNode) : SymbolTable :=
  match n with
  | .list es _ _ =>
    match es.get? 0 with
    | some (.symbol "def" _) =>
      if es.length ≥ 3 then
        match es.get? 1 with
        | some (.symbol vn _) => t.addVariable vn n none
        | _ => t
      else t
    | some (.symbol "defn" _) =>
      if es.length ≥ 4 then
        match es.get? 1 with
        | some (.symbol fn _) =>
          let params := extractFunctionParams (es.getD 2 (HQLNode.symbol "" none))
          let returnType :=
            if es.length > 4 ∧ isSymNamed (es.get? 3) "->" then symNameOpt (es.get? 4)
            else none
          t.addFunction fn params returnType n
        | _ => t
      else t
    | some (.symbol "defenum" _) =>
      if es.length ≥ 3 then
        match es.get? 1 with
        | some (.symbol en _) => t.addEnum en ((es.drop 2).filterMap symNameOf) n
        | _ => t
      else t
    | _ => t
  | _ => t

/-- The `defn` head handling of `processReferences`: when the list begins
`defn <symbol>`, enter the function scope, re-register its parameters (when
the third element is a list) and switch the scope to the function name;
otherwise keep the table and the inherited scope. -/
def defnEnter (t : SymbolTable) (parentScope : Option String)
    (es : List HQLNode) : SymbolTable × Option String :=
  match es.get? 0, es.get? 1 with
  | some (.symbol "defn" _), some (.symbol f _) =>
    let t1 := t.enterScope f
    let t2 :=
      if 3 ≤ es.length ∧ isListOpt (es.get? 2) then
        (extractFunctionParams (es.getD 2 (HQLNode.symbol "" none))).foldl
          (fun (acc : SymbolTable) (p : Param) => acc.addParameter p.name p.type f) t1
      else t1
    (t2, some f)
  | _, _ => (t, parentScope)

/-- The trailing `if (scope && scope !== parentScope) exitScope()` of
`processReferences`. -/
def scopeExit (st1 : SymbolTable × Nat) (scope parentScope : Option String) :
    SymbolTable × Nat :=
  match scope with
  | some s => if s ≠ "" ∧ parentScope ≠ some s then (st1.1.exitScope, st1.2) else st1
  | none => st1

mutual

/-- `HQLDocument.processReferences` (pass 2) on one node. The state pairs the
table with the counter used to generate fresh `let` scope ids (the source
draws them from `Math.random()`; the embedding uses `let_<counter>`, which
preserves freshness). A `let` form whose second element is a list gets the
dedicated binding walk; a `defn` head enters the function scope and
re-registers its parameters before the generic element walk. -/
def procRefs : SymbolTable × Nat → Option String → HQLNode → SymbolTable × Nat
  | st, _, .symbol name p =>
    if isSpecialSymbol name then st
    else
      match st.1.findSymbolEntry name with
      | some (k, _) => (st.1.addReferenceAt k (.symbol name p), st.2)
      | none => st
  | st, _, .literal _ _ => st
  | st, parentScope, .list ((.symbol "let" _lp) :: (.list bels _bb _blp) :: body) _lb _lpos =>
    let letScope := "let_" ++ toString st.2
    let t1 := st.1.enterScope letScope
    let st1 := procBindings (t1, st.2 + 1) parentScope bels
    let st2 := procList st1 (some letScope) body
    (st2.1.exitScope, st2.2)
  | st, parentScope, .list es _lb _lpos =>
    let entered := defnEnter st.1 parentScope es
    let st1 := procList (entered.1, st.2) entered.2 es
    scopeExit st1 entered.2 parentScope

/-- The generic element walk of `processReferences`. -/
def procList : SymbolTable × Nat → Option String → List HQLNode → SymbolTable × Nat
  | st, _, [] => st
  | st, scope, n :: rest => procList (procRefs st scope n) scope rest

/-- The binding-pair walk of a `let` form: each Symbol name is registered via
`addVariable` (under the already-entered let scope) and its value expression
walked under the enclosing scope; a non-Symbol name skips the pair. -/
def procBindings : SymbolTable × Nat → Option String → List HQLNode → SymbolTable × Nat
  | st, scope, a :: b :: rest =>
    let st1 :=
      match a with
      | .symbol s p => procRefs ((st.1.addVariable s (.symbol s p) none), st.2) scope b
      | _ => st
    procBindings st1 scope rest
  | st, _, _ => st

end

/-- `HQLDocument.buildSymbolTable`: pass 1 registers the definitions of every
top-level `def`/`defn`/`defenum` form; pass 2 walks every top-level form
recording references and scopes. -/
def buildSymbolTable (ast : List HQLNode) : SymbolTable :=
  let t1 := ast.foldl
    (fun t n => if isDefOrDefnNode n then processDefinition t n else t)
    SymbolTable.empty
  (ast.foldl (fun st n => procRefs st none n) (t1, 0)).1

/-- Modelled from the spec: the parameter-list node for the source text
`(a: Int b = 1)` under the lexer of §4.1 (the transpiler's lexer is not under
`src/`): `a:` is a single token (non-whitespace run), then `Int`, `b`, `=`,
and `1`, the last parsed as the numeric literal 1. Ranges are irrelevant to
the extractor and omitted. -/
def c6ParamListNode : HQLNode :=
  .list [.symbol "a:" none, .symbol "Int" none, .symbol "b" none, .symbol "=" none,
    .literal (.lnum 1) none] false none

/-- The two-parameter output the claim asserts. -/
def c6ClaimedParams : List Param :=
  [⟨"a", some "Int", none, true⟩,
   ⟨"b", none, some (.literal (.lnum 1) none), false⟩]

/-- The membership set recorded for a scope (empty when the scope is unknown). -/
def scopeMembers (t : SymbolTable) (s : String) : List String :=
  (mapGet t.scopes s).getD []

/-- The `SymbolInfo` that `addFunction` stores for the function itself. -/
def funcInfo (t : SymbolTable) (name : String) (params : List Param)
    (returnType : Option String) (node : HQLNode) : SymbolInfo :=
  ⟨name, .kFunction, node, t.currentScope, returnType, some params, none, []⟩

/-- The state of `addFunction` after storing the entry, entering the function
scope and registering the parameters (before the final dead branch). -/
def addFunctionCore (t : SymbolTable) (name : String) (params : List Param)
    (returnType : Option String) (node : HQLNode) : SymbolTable :=
  params.foldl (fun (acc : SymbolTable) (p : Param) => acc.addParameter p.name p.type name)
    (SymbolTable.enterScope { t with symbols := mapSet t.symbols name (funcInfo t name params returnType node) } name)

/-- `ParseError = {message, position}`. -/
structure ParseError where
  message : String
  position : Position
deriving DecidableEq, Repr

/-- The state owned by one `HQLDocument`: text, version, AST, parse error,
symbol table, spatial index, cached line offsets, and the dirty flag. -/
structure DocState where
  content : List Char
  version : Int
  ast : Option (List HQLNode)
  parseError : Option ParseError
  symbolTable : SymbolTable
  astIndex : ASTIndex
  lineOffsets : Option (List Nat)
  dirty : Bool

/-- `HQLDocument.parse`: on success replace AST, clear the error, rebuild the
index and the symbol table; on a thrown `ParseError` set the AST to none,
store the error, and clear both the symbol table and the index.
`parseFn` models the `parse` of `utilities/parser.ts` (the transpiler parser
behind it is not under `src/`): it returns an AST or throws a `ParseError`. -/
def docParse (parseFn : List Char → Except ParseError (List HQLNode))
    (st : DocState) : DocState :=
  match parseFn st.content with
  | .ok ast =>
    { st with
      ast := some ast
      parseError := none
      astIndex := ASTIndex.build (some ast)
      symbolTable := buildSymbolTable ast }
  | .error e =>
    { st with
      ast := none
      parseError := some e
      symbolTable := SymbolTable.empty
      astIndex := ASTIndex.empty }

/-- `HQLDocument.ensureParsed`: parse only when dirty, then clear the flag. -/
def ensureParsed (parseFn : List Char → Except ParseError (List HQLNode))
    (st : DocState) : DocState :=
  if st.dirty then { docParse parseFn st with dirty := false } else st

/-- `HQLDocument.update`: discard stale versions; otherwise record the new
text and version, invalidate the line-offset cache and mark dirty — no
parsing happens here. -/
def docUpdate (st : DocState) (newContent : List Char) (newVersion : Int) : DocState :=
  if newVersion ≤ st.version then st
  else
    { st with
      version := newVersion
      content := newContent
      lineOffsets := none
      dirty := true }

/-- `HQLDocument.getAST`. -/
def docGetAST (parseFn : List Char → Except ParseError (List HQLNode))
    (st : DocState) : Option (List HQLNode) × DocState :=
  ((ensureParsed parseFn st).ast, ensureParsed parseFn st)

/-- `HQLDocument.getParseError`. -/
def docGetParseError (parseFn : List Char → Except ParseError (List HQLNode))
    (st : DocState) : Option ParseError × DocState :=
  ((ensureParsed parseFn st).parseError, ensureParsed parseFn st)

/-- `HQLDocument.getSymbolTable`. -/
def docGetSymbolTable (parseFn : List Char → Except ParseError (List HQLNode))
    (st : DocState) : SymbolTable × DocState :=
  ((ensureParsed parseFn st).symbolTable, ensureParsed parseFn st)

/-- `HQLDocument.getNodeAtPosition`. -/
def docGetNodeAtPosition (parseFn : List Char → Except ParseError (List HQLNode))
    (st : DocState) (pos : Position) : Option HQLNode × DocState :=
  ((ensureParsed parseFn st).astIndex.getNodeAtPosition pos, ensureParsed parseFn st)

/-- `HQLDocument.findNodes`. -/
def docFindNodes (parseFn : List Char → Except ParseError (List HQLNode))
    (st : DocState) (p : HQLNode → Bool) : List HQLNode × DocState :=
  (ASTIndex.findNodes p (ensureParsed parseFn st).astIndex, ensureParsed parseFn st)

/-- Instrumented document: the second component counts how many times the
lex→parse→index→symbol-table pipeline has run. The counter is not part of the
source; it only makes the laziness claims (C8) statable. -/
def tEnsureParsed (parseFn : List Char → Except ParseError (List HQLNode))
    (td : DocState × Nat) : DocState × Nat :=
  if td.1.dirty then ({ docParse parseFn td.1 with dirty := false }, td.2 + 1) else td

/-- Instrumented `update`: never runs the pipeline. -/
def tUpdate (td : DocState × Nat) (u : List Char × Int) : DocState × Nat :=
  (docUpdate td.1 u.1 u.2, td.2)

/-- A fresh document state for witnesses: empty text, version 0, clean. -/
def docZero : DocState :=
  ⟨[], 0, none, none, SymbolTable.empty, ASTIndex.empty, none, false⟩

/-- A parse function that always throws, for witnesses. -/
def alwaysFail (e : ParseError) : List Char → Except ParseError (List HQLNode) :=
  fun _ => .error e

/-- Is the node a top-level `(def name ...)` form defining `name`? -/
def isDefOf (name : String) (n : HQLNode) : Bool :=
  match n with
  | .list es _ _ =>
    decide (3 ≤ es.length) && isSymNamed (es.get? 0) "def" &&
      decide (symNameOpt (es.get? 1) = some name)
  | _ => false

/-- `(def x 1) (def x 2) (let (x 3) x)`: two top-level re-definitions of `x`
followed by a `let` that re-binds `x` during the reference pass. -/
def c7Ast : List HQLNode :=
  [.list [.symbol "def" none, .symbol "x" none, .literal (.lnum 1) none] false none,
   .list [.symbol "def" none, .symbol "x" none, .literal (.lnum 2) none] false none,
   .list [.symbol "let" none,
     .list [.symbol "x" none, .literal (.lnum 3) none] false none,
     .symbol "x" none] false none]

/-- A top-level form `(def <name> <expr> ...)`: list of length ≥ 3, head the
Symbol `def`, second element a Symbol. -/
def isSimpleDefForm (n : HQLNode) : Bool :=
  match n with
  | .list es _ _ =>
    decide (3 ≤ es.length) && isSymNamed (es.get? 0) "def" && (symNameOpt (es.get? 1)).isSome
  | _ => false

/-- The defined name of a definition form. -/
def defNameOf (n : HQLNode) : String :=
  match n with
  | .list es _ _ => (symNameOpt (es.get? 1)).getD ""
  | _ => ""

/-- No special scope handling applies to the head of this element list:
neither a `let` with a binding list nor a `defn` with a symbol name. -/
def plainHead (es : List HQLNode) : Bool :=
  !(isSymNamed (es.get? 0) "let" && isListOpt (es.get? 1)) &&
    !(isSymNamed (es.get? 0) "defn" && (symNameOpt (es.get? 1)).isSome)

mutual

/-- No `let`-with-bindings and no `defn`-with-name form occurs anywhere in
the node: on such nodes pass 2 records references only. -/
def noScopeForms : HQLNode → Bool
  | .symbol _ _ => true
  | .literal _ _ => true
  | .list es _ _ => plainHead es && noScopeFormsList es

/-- `noScopeForms` on every node of a list. -/
def noScopeFormsList : List HQLNode → Bool
  | [] => true
  | n :: rest => noScopeForms n && noScopeFormsList rest

end

/-- A `SymbolInfo` with its references dropped: the part of an entry pass 2
never changes. -/
def eraseRefs (i : SymbolInfo) : SymbolInfo := { i with references := [] }

/-- The symbol map up to references. -/
def symbolsShape (t : SymbolTable) : List (String × SymbolInfo) :=
  t.symbols.map (fun e => (e.1, eraseRefs e.2))

/-- Two tables agreeing on everything except the recorded references. -/
def SameShape (a b : SymbolTable) : Prop :=
  symbolsShape a = symbolsShape b ∧ a.scopes = b.scopes ∧ a.currentScope = b.currentScope

/-- The `SymbolInfo` that `addVariable` stores at top level. -/
def varInfo (x : String) (n : HQLNode) : SymbolInfo :=
  ⟨x, .kVariable, n, none, none, none, none, []⟩

/-- Pass 1 of `buildSymbolTable`. -/
def pass1 (ast : List HQLNode) : SymbolTable :=
  ast.foldl (fun t n => if isDefOrDefnNode n then processDefinition t n else t)
    SymbolTable.empty

/-- The pass-1 fold step. -/
def stepDef (t : SymbolTable) (n : HQLNode) : SymbolTable :=
  if isDefOrDefnNode n then processDefinition t n else t

/-- `(def x 1) (def x 2)`: the plain re-definition input of the claim. -/
def c7SimpleAst : List HQLNode :=
  [.list [.symbol "def" none, .symbol "x" none, .literal (.lnum 1) none] false none,
   .list [.symbol "def" none, .symbol "x" none, .literal (.lnum 2) none] false none]

/-! ### Properties of the best-match scan (claim C1) -/

theorem bestStep_none (p : Position) (acc : Option (HQLNode × Int)) (e : String × HQLNode)
    (h : ∀ r, e.2.position = some r → ASTIndex.isPositionInRange p r = false) :
    ASTIndex.bestStep p acc e = acc := by
  unfold ASTIndex.bestStep
  cases hpos : e.2.position with
  | none => rfl
  | some r => simp [h r hpos]

theorem bestStep_cases (p : Position) (acc : Option (HQLNode × Int)) (e : String × HQLNode) :
    ASTIndex.bestStep p acc e = acc ∨
      (∃ r, e.2.position = some r ∧ ASTIndex.isPositionInRange p r = true ∧
        ASTIndex.bestStep p acc e = some (e.2, ASTIndex.rangeSize r)) := by
  unfold ASTIndex.bestStep
  cases hpos : e.2.position with
  | none => exact Or.inl rfl
  | some r =>
    by_cases hin : ASTIndex.isPositionInRange p r = true
    · simp only [hin, if_true]
      cases acc with
      | none => exact Or.inr ⟨r, rfl, hin, rfl⟩
      | some b =>
        rcases b with ⟨bn, bs⟩
        by_cases hlt : ASTIndex.rangeSize r < bs
        · exact Or.inr ⟨r, rfl, hin, by simp [hlt]⟩
        · exact Or.inl (by simp [hlt])
    · simp only [Bool.not_eq_true] at hin
      simp [hin]

theorem bestStep_ne_none (p : Position) (acc : Option (HQLNode × Int)) (e : String × HQLNode)
    (r : Range) (hpos : e.2.position = some r)
    (hin : ASTIndex.isPositionInRange p r = true) :
    ASTIndex.bestStep p acc e ≠ none := by
  unfold ASTIndex.bestStep
  rw [hpos]
  simp only [hin, if_true]
  cases acc with
  | none => simp
  | some b =>
    rcases b with ⟨bn, bs⟩
    by_cases hlt : ASTIndex.rangeSize r < bs <;> simp [hlt]

theorem bestStep_le (p : Position) (acc : Option (HQLNode × Int)) (e : String × HQLNode)
    (r : Range) (hpos : e.2.position = some r)
    (hin : ASTIndex.isPositionInRange p r = true) :
    ∀ an as, ASTIndex.bestStep p acc e = some (an, as) → as ≤ ASTIndex.rangeSize r := by
  intro an as h
  unfold ASTIndex.bestStep at h
  rw [hpos] at h
  simp only [hin, if_true] at h
  cases acc with
  | none =>
    simp at h
    omega
  | some b =>
    rcases b with ⟨bn, bs⟩
    by_cases hlt : ASTIndex.rangeSize r < bs <;> simp [hlt] at h <;> omega

theorem bestStep_acc_mono (p : Position) (e : String × HQLNode) (an as an2 as2 : _)
    (h : ASTIndex.bestStep p (some (an, as)) e = some (an2, as2)) : as2 ≤ as := by
  unfold ASTIndex.bestStep at h
  cases hpos : e.2.position with
  | none =>
    rw [hpos] at h
    simp at h
    omega
  | some r =>
    rw [hpos] at h
    by_cases hin : ASTIndex.isPositionInRange p r = true
    · simp only [hin, if_true] at h
      by_cases hlt : ASTIndex.rangeSize r < as <;> simp [hlt] at h <;> omega
    · simp only [Bool.not_eq_true] at hin
      simp [hin] at h
      omega

theorem bestStep_some_acc (p : Position) (e : String × HQLNode) (x : HQLNode × Int) :
    ∃ y, ASTIndex.bestStep p (some x) e = some y := by
  unfold ASTIndex.bestStep
  cases hpos : e.2.position with
  | none => exact ⟨x, rfl⟩
  | some r =>
    by_cases hin : ASTIndex.isPositionInRange p r = true
    · simp only [hin, if_true]
      rcases x with ⟨bn, bs⟩
      by_cases hlt : ASTIndex.rangeSize r < bs <;> simp [hlt]
    · simp only [Bool.not_eq_true] at hin
      simp [hin]

theorem bestFold_none_iff (p : Position) :
    ∀ (l : List (String × HQLNode)) (acc : Option (HQLNode × Int)),
      l.foldl (ASTIndex.bestStep p) acc = none ↔
        (acc = none ∧ ∀ e ∈ l, ∀ r, (e : String × HQLNode).2.position = some r →
          ASTIndex.isPositionInRange p r = false)
  | [], acc => by simp
  | e :: rest, acc => by
    rw [List.foldl_cons, bestFold_none_iff p rest]
    constructor
    · rintro ⟨h1, h2⟩
      have hacc : acc = none := by
        rcases bestStep_cases p acc e with hc | ⟨r, _, _, hc⟩
        · rw [hc] at h1
          exact h1
        · rw [hc] at h1
          exact absurd h1 (by simp)
      refine ⟨hacc, ?_⟩
      intro e' he' r' hpos'
      rcases List.mem_cons.mp he' with he2 | he2
      · subst he2
        by_contra hne
        simp only [Bool.not_eq_false] at hne
        exact bestStep_ne_none p acc e' r' hpos' hne h1
      · exact h2 e' he2 r' hpos'
    · rintro ⟨h1, h2⟩
      have he : ∀ r, e.2.position = some r → ASTIndex.isPositionInRange p r = false :=
        fun r hr => h2 e (by simp) r hr
      rw [bestStep_none p acc e he, h1]
      exact ⟨rfl, fun e' he' r' h' => h2 e' (by simp [he']) r' h'⟩

theorem bestFold_some_spec (p : Position) :
    ∀ (l : List (String × HQLNode)) (acc : Option (HQLNode × Int)) (bn : HQLNode) (bs : Int),
      l.foldl (ASTIndex.bestStep p) acc = some (bn, bs) →
        (acc = some (bn, bs) ∨
          ∃ k r, (k, bn) ∈ l ∧ bn.position = some r ∧
            ASTIndex.isPositionInRange p r = true ∧ bs = ASTIndex.rangeSize r) ∧
        (∀ e ∈ l, ∀ r, (e : String × HQLNode).2.position = some r →
          ASTIndex.isPositionInRange p r = true → bs ≤ ASTIndex.rangeSize r) ∧
        (∀ an as, acc = some (an, as) → bs ≤ as)
  | [], acc, bn, bs => by
    intro h
    simp only [List.foldl_nil] at h
    refine ⟨Or.inl h, by simp, ?_⟩
    intro an as ha
    rw [h] at ha
    injection ha with hb
    injection hb with _ hbs
    omega
  | e :: rest, acc, bn, bs => by
    intro h
    rw [List.foldl_cons] at h
    obtain ⟨ho, hmin, hacc⟩ := bestFold_some_spec p rest (ASTIndex.bestStep p acc e) bn bs h
    have step_origin : (acc = some (bn, bs)) ∨
        ∃ k r, (k, bn) ∈ e :: rest ∧ bn.position = some r ∧
          ASTIndex.isPositionInRange p r = true ∧ bs = ASTIndex.rangeSize r := by
      rcases ho with ho | ⟨k, r, hk, hr⟩
      · rcases bestStep_cases p acc e with hc | ⟨r, hpos, hin, hc⟩
        · rw [hc] at ho
          exact Or.inl ho
        · rw [hc] at ho
          injection ho with hb
          injection hb with hbn hbs
          exact Or.inr ⟨e.1, r, by simp [← hbn], by rw [← hbn]; exact hpos, hin, hbs.symm⟩
      · exact Or.inr ⟨k, r, List.mem_cons_of_mem _ hk, hr⟩
    refine ⟨step_origin, ?_, ?_⟩
    · intro e' he' r' hpos' hin'
      rcases List.mem_cons.mp he' with he2 | he2
      · subst he2
        have hne := bestStep_ne_none p acc e' r' hpos' hin'
        rcases hb : ASTIndex.bestStep p acc e' with _ | ⟨an', as'⟩
        · exact absurd hb hne
        · have h1 := hacc an' as' hb
          have h2 := bestStep_le p acc e' r' hpos' hin' an' as' hb
          omega
      · exact hmin e' he2 r' hpos' hin'
    · intro an as ha
      subst ha
      obtain ⟨⟨an', as'⟩, hy⟩ := bestStep_some_acc p e (an, as)
      have h1 := hacc an' as' hy
      have h2 := bestStep_acc_mono p e an as an' as' hy
      omega

/-- C1: for every built AST index and query position, `getNodeAtPosition`
returns, among all indexed nodes whose range contains the position under the
inclusive lexicographic containment test, a node of minimal range-size
(`end.character − start.character` on one line, `1000 × line-span +
end.character` across lines), and returns `none` when no indexed node's
range contains the position. -/
theorem c1_node_at_position_minimal (ast : Option (List HQLNode)) (pos : Position) :
    (ASTIndex.getNodeAtPosition (ASTIndex.build ast) pos = none ↔
      ∀ n ∈ ASTIndex.values (ASTIndex.build ast), ∀ r, n.position = some r →
        ASTIndex.isPositionInRange pos r = false) ∧
    (∀ n, ASTIndex.getNodeAtPosition (ASTIndex.build ast) pos = some n →
      n ∈ ASTIndex.values (ASTIndex.build ast) ∧
      ∃ r, n.position = some r ∧ ASTIndex.isPositionInRange pos r = true ∧
        ∀ m ∈ ASTIndex.values (ASTIndex.build ast), ∀ r2, m.position = some r2 →
          ASTIndex.isPositionInRange pos r2 = true →
          ASTIndex.rangeSize r ≤ ASTIndex.rangeSize r2) ∧
    (∀ (q : Position) (r : Range), ASTIndex.isPositionInRange q r = true ↔
      ((r.start.line < q.line ∨ (r.start.line = q.line ∧ r.start.character ≤ q.character)) ∧
       (q.line < r.stop.line ∨ (q.line = r.stop.line ∧ q.character ≤ r.stop.character)))) := by
  refine ⟨?_, ?_, ?_⟩
  · unfold ASTIndex.getNodeAtPosition
    rw [Option.map_eq_none', bestFold_none_iff]
    simp only [true_and]
    constructor
    · intro h n hn r hr
      rcases List.mem_map.mp hn with ⟨e, he, hen⟩
      exact h e he r (by rw [show e.2 = n from hen]; exact hr)
    · intro h e he r hr
      exact h e.2 (List.mem_map.mpr ⟨e, he, rfl⟩) r hr
  · intro n hsome
    unfold ASTIndex.getNodeAtPosition at hsome
    rcases Option.map_eq_some'.mp hsome with ⟨⟨bn, bs⟩, hfold, hbn⟩
    simp only at hbn
    subst hbn
    obtain ⟨ho, hmin, _⟩ := bestFold_some_spec pos _ none bn bs hfold
    rcases ho with habs | ⟨k, r, hk, hr, hin, hbs⟩
    · exact absurd habs (by simp)
    refine ⟨List.mem_map.mpr ⟨(k, bn), hk, rfl⟩, r, hr, hin, ?_⟩
    intro m hm r2 hm2 hin2
    rcases List.mem_map.mp hm with ⟨e, he, hen⟩
    have hle := hmin e he r2 (by rw [show e.2 = m from hen]; exact hm2) hin2
    omega
  · intro q r
    unfold ASTIndex.isPositionInRange
    split_ifs with h1 h2
    · simp only [Bool.false_eq_true, false_iff]
      omega
    · simp only [Bool.false_eq_true, false_iff]
      omega
    · simp only [true_iff]
      omega

/-- Witness for C1 at a concrete input: the empty index contains nothing,
so the point query returns the absent value. -/
theorem c1_node_at_position_minimal_witness :
    ASTIndex.getNodeAtPosition (ASTIndex.build none) ⟨0, 0⟩ = none :=
  (c1_node_at_position_minimal none ⟨0, 0⟩).1.mpr
    (fun n hn => absurd hn (List.not_mem_nil n))

theorem indexNode_nbp (idx : ASTIndex) (n : HQLNode) :
    (ASTIndex.indexNode idx n).nodesByPosition = posInsert idx.nodesByPosition n := by
  cases n with
  | symbol s p => cases p with
    | none => rfl
    | some r => rfl
  | literal v p => cases p with
    | none => rfl
    | some r => rfl
  | list es b p => cases p with
    | none => rfl
    | some r => rfl

mutual

theorem walkOne_nbp : ∀ (n : HQLNode) (idx : ASTIndex),
    (ASTIndex.walkOne idx n).nodesByPosition =
      (preorder n).foldl posInsert idx.nodesByPosition
  | .symbol s p, idx => by
    rw [show ASTIndex.walkOne idx (.symbol s p) = ASTIndex.indexNode idx (.symbol s p) from rfl]
    rw [indexNode_nbp]
    rfl
  | .literal v p, idx => by
    rw [show ASTIndex.walkOne idx (.literal v p) = ASTIndex.indexNode idx (.literal v p) from rfl]
    rw [indexNode_nbp]
    rfl
  | .list es b p, idx => by
    have h1 : (ASTIndex.walkOne idx (HQLNode.list es b p)).nodesByPosition =
        (ASTIndex.walkList
          { ASTIndex.indexNode idx (HQLNode.list es b p) with
            listNodes := (ASTIndex.indexNode idx (HQLNode.list es b p)).listNodes ++
              [HQLNode.list es b p] } es).nodesByPosition := rfl
    rw [h1, walkList_nbp es]
    rw [show ({ ASTIndex.indexNode idx (HQLNode.list es b p) with
        listNodes := (ASTIndex.indexNode idx (HQLNode.list es b p)).listNodes ++
          [HQLNode.list es b p] } : ASTIndex).nodesByPosition =
        (ASTIndex.indexNode idx (HQLNode.list es b p)).nodesByPosition from rfl]
    rw [indexNode_nbp]
    rfl

theorem walkList_nbp : ∀ (ns : List HQLNode) (idx : ASTIndex),
    (ASTIndex.walkList idx ns).nodesByPosition =
      (preorderList ns).foldl posInsert idx.nodesByPosition
  | [], idx => rfl
  | n :: rest, idx => by
    rw [show ASTIndex.walkList idx (n :: rest) =
      ASTIndex.walkList (ASTIndex.walkOne idx n) rest from rfl]
    rw [walkList_nbp rest, walkOne_nbp n]
    rw [show preorderList (n :: rest) = preorder n ++ preorderList rest from rfl]
    rw [List.foldl_append]

end

theorem mapSet_append {α : Type} (m : List (String × α)) (k : String) (v : α)
    (h : k ∉ m.map Prod.fst) : mapSet m k v = m ++ [(k, v)] := by
  induction m with
  | nil => rfl
  | cons e rest ih =>
    simp only [List.map_cons, List.mem_cons] at h
    push_neg at h
    unfold mapSet
    rw [if_neg (fun he => h.1 he.symm)]
    rw [ih h.2]
    rfl

theorem rangedEntries_nil : rangedEntries [] = [] := rfl

theorem rangedEntries_cons (n : HQLNode) (rest : List HQLNode) :
    rangedEntries (n :: rest) =
      (match n.position with
       | some r => (ASTIndex.rangeToKey r, n) :: rangedEntries rest
       | none => rangedEntries rest) := by
  cases hpos : n.position with
  | none => simp [rangedEntries, List.filterMap_cons, hpos]
  | some r => simp [rangedEntries, List.filterMap_cons, hpos]

theorem foldl_posInsert_fresh :
    ∀ (l : List HQLNode) (m : List (String × HQLNode)),
      (∀ k ∈ (rangedEntries l).map Prod.fst, k ∉ m.map Prod.fst) →
      ((rangedEntries l).map Prod.fst).Nodup →
      l.foldl posInsert m = m ++ rangedEntries l := by
  intro l
  induction l with
  | nil => intro m _ _; simp [rangedEntries]
  | cons n rest ih =>
    intro m hfresh hnd
    rw [List.foldl_cons]
    cases hpos : n.position with
    | none =>
      have hstep : posInsert m n = m := by unfold posInsert; rw [hpos]
      rw [hstep, rangedEntries_cons]
      rw [rangedEntries_cons] at hfresh hnd
      rw [hpos] at hfresh hnd ⊢
      exact ih m hfresh hnd
    | some r =>
      have hstep : posInsert m n = mapSet m (ASTIndex.rangeToKey r) n := by
        unfold posInsert; rw [hpos]
      rw [rangedEntries_cons] at hfresh hnd
      rw [hpos] at hfresh hnd
      simp only [List.map_cons, List.mem_cons, List.nodup_cons] at hfresh hnd
      have hk : ASTIndex.rangeToKey r ∉ m.map Prod.fst := hfresh _ (Or.inl rfl)
      rw [hstep, mapSet_append m _ n hk]
      have hfresh2 : ∀ k ∈ (rangedEntries rest).map Prod.fst,
          k ∉ (m ++ [(ASTIndex.rangeToKey r, n)]).map Prod.fst := by
        intro k hkmem
        simp only [List.map_append, List.mem_append, List.map_cons, List.map_nil,
          List.mem_singleton]
        rintro (hin | hin)
        · exact hfresh k (Or.inr hkmem) hin
        · exact hnd.1 (hin ▸ hkmem)
      rw [ih _ hfresh2 hnd.2, rangedEntries_cons, hpos]
      simp

theorem rangedEntries_map_snd : ∀ (l : List HQLNode),
    (rangedEntries l).map Prod.snd = l.filter (fun n => n.position.isSome)
  | [] => rfl
  | n :: rest => by
    rw [rangedEntries_cons]
    cases hpos : n.position with
    | none => simp [hpos, List.filter_cons, rangedEntries_map_snd rest]
    | some r => simp [hpos, List.filter_cons, rangedEntries_map_snd rest]

/-- C3 as stated is false: the position map is keyed by the range string, so
the second of two identically-ranged nodes overwrites the first, and
`findNodes` then misses a ranged node of the AST. -/
theorem c3_counterexample : ¬ (∀ (ast : List HQLNode) (p : HQLNode → Bool),
    ASTIndex.findNodes p (ASTIndex.build (some ast)) = (rangedNodes ast).filter p) := by
  intro h
  have h1 : (ASTIndex.findNodes (fun _ => true) (ASTIndex.build (some dupAst))).length = 1 := rfl
  have h2 : ((rangedNodes dupAst).filter (fun _ => true)).length = 2 := rfl
  rw [h dupAst (fun _ => true)] at h1
  rw [h1] at h2
  exact absurd h2 (by decide)

/-- C3 amended: after a successful build the index retains, for each distinct
range key, the last node of the walk with that key; when the ranged nodes of
the AST have pairwise-distinct range keys (the second node of an
identical-range pair is otherwise the only one retained), `findNodes p`
returns exactly the ranged nodes of the AST satisfying `p`, in visit order. -/
theorem c3_find_nodes_exact (ast : List HQLNode) (p : HQLNode → Bool)
    (h : ((rangedEntries (preorderList ast)).map Prod.fst).Nodup) :
    ASTIndex.findNodes p (ASTIndex.build (some ast)) = (rangedNodes ast).filter p := by
  unfold ASTIndex.findNodes ASTIndex.build
  rw [walkList_nbp]
  rw [show ASTIndex.empty.nodesByPosition = [] from rfl]
  rw [foldl_posInsert_fresh _ [] (by simp) h]
  rw [List.nil_append, rangedEntries_map_snd]
  rfl

theorem c3_find_nodes_exact_witness :
    ((rangedEntries (preorderList distinctAst)).map Prod.fst).Nodup ∧
      ASTIndex.findNodes (fun _ => true) (ASTIndex.build (some distinctAst)) =
        (rangedNodes distinctAst).filter (fun _ => true) :=
  ⟨by decide, c3_find_nodes_exact distinctAst (fun _ => true) (by decide)⟩

theorem offsBounds_cons (i k m : Nat) (ls : Bool) (tl : List Nat)
    (hk : 1 ≤ k) (hkm : k ≤ m)
    (hb : ∀ x ∈ tl, i + k ≤ x ∧ x < i + m)
    (hp : tl.Pairwise (· < ·)) :
    (∀ x ∈ (if ls then [i] else []) ++ tl, i ≤ x ∧ x < i + m) ∧
      ((if ls then [i] else []) ++ tl).Pairwise (· < ·) := by
  cases ls with
  | false =>
    simp only [Bool.false_eq_true, if_false, List.nil_append]
    exact ⟨fun x hx => ⟨by have := (hb x hx).1; omega, (hb x hx).2⟩, hp⟩
  | true =>
    simp only [if_true, List.singleton_append]
    constructor
    · intro x hx
      rcases List.mem_cons.mp hx with rfl | hx
      · omega
      · exact ⟨by have := (hb x hx).1; omega, (hb x hx).2⟩
    · exact List.pairwise_cons.mpr ⟨fun y hy => by have := (hb y hy).1; omega, hp⟩

theorem not_crlf_hyp {c c2 : Char} {rest2 : List Char} (hc : ¬(c = '\r' ∧ c2 = '\n')) :
    ∀ (r : List Char), c = '\r' → c2 :: rest2 = '\n' :: r → False := by
  intro r h1 h2
  injection h2 with ha hb
  exact hc ⟨h1, ha⟩

theorem lineOffsGo_bounds : ∀ (n : Nat) (cs : List Char), cs.length = n →
    ∀ (i : Nat) (ls : Bool),
      (∀ x ∈ (lineOffsGo cs i ls).1, i ≤ x ∧ x < i + cs.length) ∧
        ((lineOffsGo cs i ls).1).Pairwise (· < ·) := by
  intro n
  induction n using Nat.strong_induction_on with
  | _ n ih =>
    intro cs hlen i ls
    rcases cs with _ | ⟨c, rest⟩
    · simp [lineOffsGo]
    rcases rest with _ | ⟨c2, rest2⟩
    · rw [lineOffsGo.eq_3 i ls c [] (by intro r h1 h2; cases h2)]
      rw [show (lineOffsGo [] (i + 1) (decide (c = '\r' ∨ c = '\n'))) =
        ([], decide (c = '\r' ∨ c = '\n')) from rfl]
      exact offsBounds_cons i 1 1 ls [] le_rfl le_rfl (by simp) (by simp)
    by_cases hc : c = '\r' ∧ c2 = '\n'
    · obtain ⟨hc1, hc2⟩ := hc
      subst hc1
      subst hc2
      rw [lineOffsGo.eq_2]
      have hlt : rest2.length < n := by
        simp only [List.length_cons] at hlen
        omega
      obtain ⟨hb, hp⟩ := ih rest2.length hlt rest2 rfl (i + 2) true
      refine offsBounds_cons i 2 (('\r' :: '\n' :: rest2).length) ls
        ((lineOffsGo rest2 (i + 2) true).1) (by omega)
        (by simp only [List.length_cons]; omega) ?_ hp
      intro x hx
      have := hb x hx
      simp only [List.length_cons]
      omega
    · rw [lineOffsGo.eq_3 i ls c (c2 :: rest2) (not_crlf_hyp hc)]
      have hlt : (c2 :: rest2).length < n := by
        simp only [List.length_cons] at hlen ⊢
        omega
      obtain ⟨hb, hp⟩ := ih (c2 :: rest2).length hlt (c2 :: rest2) rfl (i + 1)
        (decide (c = '\r' ∨ c = '\n'))
      refine offsBounds_cons i 1 ((c :: c2 :: rest2).length) ls
        ((lineOffsGo (c2 :: rest2) (i + 1) (decide (c = '\r' ∨ c = '\n'))).1) le_rfl
        (by simp only [List.length_cons]; omega) ?_ hp
      intro x hx
      have := hb x hx
      simp only [List.length_cons] at this ⊢
      omega

theorem lineOffsGo_head : ∀ (cs : List Char) (i : Nat), cs ≠ [] →
    ∃ l, (lineOffsGo cs i true).1 = i :: l := by
  intro cs i hne
  rcases cs with _ | ⟨c, rest⟩
  · exact absurd rfl hne
  rcases rest with _ | ⟨c2, rest2⟩
  · refine ⟨(lineOffsGo [] (i + 1) (decide (c = '\r' ∨ c = '\n'))).1, ?_⟩
    rw [lineOffsGo.eq_3 i true c [] (by intro r h1 h2; cases h2)]
    rfl
  by_cases hc : c = '\r' ∧ c2 = '\n'
  · obtain ⟨hc1, hc2⟩ := hc
    subst hc1
    subst hc2
    exact ⟨(lineOffsGo rest2 (i + 2) true).1, by rw [lineOffsGo.eq_2]; rfl⟩
  · refine ⟨(lineOffsGo (c2 :: rest2) (i + 1) (decide (c = '\r' ∨ c = '\n'))).1, ?_⟩
    rw [lineOffsGo.eq_3 i true c (c2 :: rest2) (not_crlf_hyp hc)]
    rfl

theorem getLineOffsets_eq (t : List Char) :
    getLineOffsets t =
      if (lineOffsGo t 0 true).2 = true ∧ 0 < t.length
      then (lineOffsGo t 0 true).1 ++ [t.length]
      else (lineOffsGo t 0 true).1 := rfl

theorem getLineOffsets_sorted (t : List Char) :
    (getLineOffsets t).Pairwise (· < ·) := by
  obtain ⟨hb, hp⟩ := lineOffsGo_bounds t.length t rfl 0 true
  rw [getLineOffsets_eq]
  split
  · rw [List.pairwise_append]
    refine ⟨hp, by simp, ?_⟩
    intro a ha b hb2
    rcases List.mem_singleton.mp hb2 with rfl
    have := (hb a ha).2
    omega
  · exact hp

theorem getLineOffsets_le (t : List Char) :
    ∀ x ∈ getLineOffsets t, x ≤ t.length := by
  obtain ⟨hb, _⟩ := lineOffsGo_bounds t.length t rfl 0 true
  rw [getLineOffsets_eq]
  split
  · intro x hx
    rcases List.mem_append.mp hx with hx | hx
    · have := (hb x hx).2
      omega
    · rcases List.mem_singleton.mp hx with rfl
      exact le_rfl
  · intro x hx
    have := (hb x hx).2
    omega

theorem getLineOffsets_head (t : List Char) (h : t ≠ []) :
    ∃ l, getLineOffsets t = 0 :: l := by
  obtain ⟨l, hl⟩ := lineOffsGo_head t 0 h
  rw [getLineOffsets_eq]
  split
  · exact ⟨l ++ [t.length], by rw [hl]; rfl⟩
  · exact ⟨l, hl⟩

theorem getLineOffsets_len_pos (t : List Char) (h : t ≠ []) :
    0 < (getLineOffsets t).length := by
  obtain ⟨l, hl⟩ := getLineOffsets_head t h
  rw [hl]
  simp

theorem getLineOffsets_empty : getLineOffsets [] = [] := rfl

theorem getLineOffsets_getD_zero (t : List Char) (h : t ≠ []) :
    (getLineOffsets t).getD 0 0 = 0 := by
  obtain ⟨l, hl⟩ := getLineOffsets_head t h
  rw [hl]
  rfl

theorem getD_mono (l : List Nat) (hp : l.Pairwise (· < ·)) (i j : Nat)
    (hij : i ≤ j) (hj : j < l.length) : l.getD i 0 ≤ l.getD j 0 := by
  rcases Nat.eq_or_lt_of_le hij with rfl | hlt
  · exact le_rfl
  · have hi : i < l.length := lt_trans hlt hj
    rw [List.getD_eq_getElem l 0 hi, List.getD_eq_getElem l 0 hj]
    exact le_of_lt (List.pairwise_iff_getElem.mp hp i j hi hj hlt)

theorem ubSearchGo_spec (offs : List Nat) (target : Nat)
    (hmono : ∀ i j, i ≤ j → j < offs.length → offs.getD i 0 ≤ offs.getD j 0) :
    ∀ (fuel low high : Nat), high ≤ offs.length → low ≤ high → high - low ≤ fuel →
      (∀ i, i < low → offs.getD i 0 ≤ target) →
      (∀ i, high ≤ i → i < offs.length → target < offs.getD i 0) →
      (∀ i, i < ubSearchGo fuel low high offs target → offs.getD i 0 ≤ target) ∧
      (∀ i, ubSearchGo fuel low high offs target ≤ i → i < offs.length →
        target < offs.getD i 0) ∧
      low ≤ ubSearchGo fuel low high offs target ∧
      ubSearchGo fuel low high offs target ≤ high := by
  intro fuel
  induction fuel with
  | zero =>
    intro low high hhl hlh hfuel h1 h2
    have : low = high := by omega
    subst this
    unfold ubSearchGo
    exact ⟨h1, fun i hi hlen => h2 i hi hlen, le_rfl, le_rfl⟩
  | succ fuel ihf =>
    intro low high hhl hlh hfuel h1 h2
    by_cases hcmp : low < high
    · rw [show ubSearchGo (fuel + 1) low high offs target =
        (if low < high then
          if target < offs.getD ((low + high) / 2) 0 then
            ubSearchGo fuel low ((low + high) / 2) offs target
          else ubSearchGo fuel (((low + high) / 2) + 1) high offs target
        else low) from rfl]
      rw [if_pos hcmp]
      have hmid1 : low ≤ (low + high) / 2 := by omega
      have hmid2 : (low + high) / 2 < high := by omega
      by_cases htgt : target < offs.getD ((low + high) / 2) 0
      · rw [if_pos htgt]
        have h2' : ∀ i, (low + high) / 2 ≤ i → i < offs.length →
            target < offs.getD i 0 := by
          intro i hi hlen
          calc target < offs.getD ((low + high) / 2) 0 := htgt
            _ ≤ offs.getD i 0 := hmono _ i hi hlen
        obtain ⟨c1, c2, c3, c4⟩ := ihf low ((low + high) / 2) (by omega) hmid1
          (by omega) h1 h2'
        exact ⟨c1, c2, c3, by omega⟩
      · rw [if_neg htgt]
        push_neg at htgt
        have h1' : ∀ i, i < (low + high) / 2 + 1 → offs.getD i 0 ≤ target := by
          intro i hi
          rcases Nat.lt_or_ge i low with hil | hil
          · exact h1 i hil
          · calc offs.getD i 0 ≤ offs.getD ((low + high) / 2) 0 :=
                hmono i _ (by omega) (by omega)
              _ ≤ target := htgt
        obtain ⟨c1, c2, c3, c4⟩ := ihf ((low + high) / 2 + 1) high hhl (by omega)
          (by omega) h1' h2
        exact ⟨c1, c2, by omega, c4⟩
    · rw [show ubSearchGo (fuel + 1) low high offs target =
        (if low < high then
          if target < offs.getD ((low + high) / 2) 0 then
            ubSearchGo fuel low ((low + high) / 2) offs target
          else ubSearchGo fuel (((low + high) / 2) + 1) high offs target
        else low) from rfl]
      rw [if_neg hcmp]
      have : low = high := by omega
      subst this
      exact ⟨h1, fun i hi hlen => h2 i hi hlen, le_rfl, le_rfl⟩

theorem Position_line_mk (l ch : Nat) : (Position.mk l ch).line = l := rfl

theorem Position_character_mk (l ch : Nat) : (Position.mk l ch).character = ch := rfl

theorem ub_unique (offs : List Nat) (target : Nat) (r1 r2 : Nat)
    (h1a : ∀ i, i < r1 → offs.getD i 0 ≤ target)
    (h1b : ∀ i, r1 ≤ i → i < offs.length → target < offs.getD i 0)
    (h2a : ∀ i, i < r2 → offs.getD i 0 ≤ target)
    (h2b : ∀ i, r2 ≤ i → i < offs.length → target < offs.getD i 0)
    (hr1 : r1 ≤ offs.length) (hr2 : r2 ≤ offs.length) : r1 = r2 := by
  by_contra hne
  rcases Nat.lt_or_ge r1 r2 with h | h
  · have ha := h2a r1 h
    have hb := h1b r1 le_rfl (by omega)
    omega
  · have h' : r2 < r1 := by omega
    have ha := h1a r2 h'
    have hb := h2b r2 le_rfl (by omega)
    omega

theorem text_ne_nil_of_len_pos (t : List Char)
    (h : 0 < (getLineOffsets t).length) : t ≠ [] := by
  intro he
  subst he
  rw [getLineOffsets_empty] at h
  exact absurd h (by simp)

theorem getLineOffsets_getD_le (t : List Char) (i : Nat)
    (h : i < (getLineOffsets t).length) : (getLineOffsets t).getD i 0 ≤ t.length := by
  rw [List.getD_eq_getElem _ 0 h]
  exact getLineOffsets_le t _ (List.getElem_mem h)

theorem positionAt_eq (t : List Char) (o : Nat) : positionAt t o =
    if (getLineOffsets t).length = 0 then ⟨0, min o t.length⟩
    else
      ⟨ubSearchGo (getLineOffsets t).length 0 (getLineOffsets t).length
          (getLineOffsets t) (min o t.length) - 1,
        min o t.length - (getLineOffsets t).getD
          (ubSearchGo (getLineOffsets t).length 0 (getLineOffsets t).length
            (getLineOffsets t) (min o t.length) - 1) 0⟩ := rfl

theorem offsetAt_eq (t : List Char) (p : Position) : offsetAt t p =
    if (getLineOffsets t).length ≤ p.line then t.length
    else
      min ((getLineOffsets t).getD p.line 0 + p.character)
        (if p.line + 1 < (getLineOffsets t).length
         then (getLineOffsets t).getD (p.line + 1) 0 else t.length) := rfl

/-- C4: for every document text, `positionAt` and `offsetAt` are mutually
inverse: `positionAt (offsetAt p) = p` for every valid position `p` (its line
exists and its character keeps the position inside that line's span), and
`offsetAt (positionAt o) = o` for every offset `o` within the text. -/
theorem c4_offset_position_roundtrip (t : List Char) :
    (∀ p : Position, ValidPosition t p → positionAt t (offsetAt t p) = p) ∧
    (∀ o : Nat, o ≤ t.length → offsetAt t (positionAt t o) = o) := by
  constructor
  · intro p hp
    obtain ⟨hline, hchar⟩ := hp
    have hNpos : 0 < (getLineOffsets t).length := by omega
    have hne := text_ne_nil_of_len_pos t hNpos
    have hno : ¬((getLineOffsets t).length ≤ p.line) := by omega
    have hoeq : offsetAt t p = (getLineOffsets t).getD p.line 0 + p.character := by
      rw [offsetAt_eq, if_neg hno]
      by_cases hn : p.line + 1 < (getLineOffsets t).length
      · rw [if_pos hn]
        rw [if_pos hn] at hchar
        omega
      · rw [if_neg hn]
        rw [if_neg hn] at hchar
        omega
    have hole : offsetAt t p ≤ t.length := by
      rw [hoeq]
      by_cases hn : p.line + 1 < (getLineOffsets t).length
      · rw [if_pos hn] at hchar
        have := getLineOffsets_getD_le t (p.line + 1) hn
        omega
      · rw [if_neg hn] at hchar
        omega
    have hmin : min (offsetAt t p) t.length = offsetAt t p := Nat.min_eq_left hole
    rw [positionAt_eq, if_neg (by omega), hmin]
    obtain ⟨s1, s2, s3, s4⟩ := ubSearchGo_spec (getLineOffsets t) (offsetAt t p)
      (getD_mono (getLineOffsets t) (getLineOffsets_sorted t))
      (getLineOffsets t).length 0 (getLineOffsets t).length le_rfl (by omega)
      (by omega) (fun i hi => absurd hi (Nat.not_lt_zero i))
      (fun i hi hlen => absurd (lt_of_le_of_lt hi hlen) (lt_irrefl _))
    have h2a : ∀ i, i < p.line + 1 → (getLineOffsets t).getD i 0 ≤ offsetAt t p := by
      intro i hi
      have : (getLineOffsets t).getD i 0 ≤ (getLineOffsets t).getD p.line 0 :=
        getD_mono (getLineOffsets t) (getLineOffsets_sorted t) i p.line (by omega) hline
      omega
    have h2b : ∀ i, p.line + 1 ≤ i → i < (getLineOffsets t).length →
        offsetAt t p < (getLineOffsets t).getD i 0 := by
      intro i hi hlen
      have hn : p.line + 1 < (getLineOffsets t).length := lt_of_le_of_lt hi hlen
      rw [if_pos hn] at hchar
      have : (getLineOffsets t).getD (p.line + 1) 0 ≤ (getLineOffsets t).getD i 0 :=
        getD_mono (getLineOffsets t) (getLineOffsets_sorted t) (p.line + 1) i hi hlen
      omega
    have hrK : ubSearchGo (getLineOffsets t).length 0 (getLineOffsets t).length
        (getLineOffsets t) (offsetAt t p) = p.line + 1 :=
      ub_unique (getLineOffsets t) (offsetAt t p) _ (p.line + 1) s1 s2 h2a h2b s4 (by omega)
    rw [hrK]
    have hstart : (getLineOffsets t).getD p.line 0 ≤ offsetAt t p := by
      rw [hoeq]
      omega
    have hl2 : p.line + 1 - 1 = p.line := by omega
    rw [hl2]
    cases p with
    | mk pl pc =>
      simp only [Position_line_mk, Position_character_mk] at hchar hoeq hstart ⊢
      simp only [Position.mk.injEq, true_and]
      omega
  · intro o ho
    by_cases hN : (getLineOffsets t).length = 0
    · have ht : t = [] := by
        by_contra hne
        have := getLineOffsets_len_pos t hne
        omega
      subst ht
      simp only [List.length_nil, Nat.le_zero] at ho
      subst ho
      rfl
    · have hNpos : 0 < (getLineOffsets t).length := by omega
      have hne := text_ne_nil_of_len_pos t hNpos
      have hmin : min o t.length = o := Nat.min_eq_left ho
      rw [positionAt_eq, if_neg hN, hmin]
      obtain ⟨s1, s2, s3, s4⟩ := ubSearchGo_spec (getLineOffsets t) o
        (getD_mono (getLineOffsets t) (getLineOffsets_sorted t))
        (getLineOffsets t).length 0 (getLineOffsets t).length le_rfl (by omega)
        (by omega) (fun i hi => absurd hi (Nat.not_lt_zero i))
        (fun i hi hlen => absurd (lt_of_le_of_lt hi hlen) (lt_irrefl _))
      set r := ubSearchGo (getLineOffsets t).length 0 (getLineOffsets t).length
        (getLineOffsets t) o with hrdef
      have hr1 : 1 ≤ r := by
        by_contra hr0
        have hz : r = 0 := by omega
        have h0 := s2 0 (by omega) hNpos
        rw [getLineOffsets_getD_zero t hne] at h0
        omega
      have hstart : (getLineOffsets t).getD (r - 1) 0 ≤ o := s1 (r - 1) (by omega)
      rw [offsetAt_eq]
      dsimp only
      rw [if_neg (by omega)]
      have hcancel : (getLineOffsets t).getD (r - 1) 0 +
          (o - (getLineOffsets t).getD (r - 1) 0) = o := by omega
      rw [hcancel]
      by_cases hrN : r - 1 + 1 < (getLineOffsets t).length
      · rw [if_pos hrN]
        have := s2 (r - 1 + 1) (by omega) hrN
        omega
      · rw [if_neg hrN]
        omega

/-- C4 witness at a concrete text, position and offset. -/
theorem c4_offset_position_roundtrip_witness :
    ValidPosition ['a', 'b', '\n', 'c', 'd'] ⟨1, 1⟩ ∧
      positionAt ['a', 'b', '\n', 'c', 'd']
        (offsetAt ['a', 'b', '\n', 'c', 'd'] ⟨1, 1⟩) = ⟨1, 1⟩ ∧
      4 ≤ (['a', 'b', '\n', 'c', 'd'] : List Char).length ∧
      offsetAt ['a', 'b', '\n', 'c', 'd']
        (positionAt ['a', 'b', '\n', 'c', 'd'] 4) = 4 :=
  ⟨by decide,
   (c4_offset_position_roundtrip ['a', 'b', '\n', 'c', 'd']).1 ⟨1, 1⟩ (by decide),
   by decide,
   (c4_offset_position_roundtrip ['a', 'b', '\n', 'c', 'd']).2 4 (by decide)⟩

/-- C5 counterexample: for an out-of-range line the source's `offsetAt` returns
the text length (7), not the claimed clamp-then-add value (4). -/
theorem c5_counterexample :
    ¬ (∀ (t : List Char) (p : Position), offsetAt t p = offsetAtClaimed t p) := by
  intro h
  exact absurd (h sampleText ⟨5, 0⟩) (by decide)

/-- C5 amended: for an in-range line the claimed clamp-then-add-then-cap
formula agrees with `offsetAt` (clamping is a no-op there); for a line at or
beyond the line count, `offsetAt` returns the text length instead. -/
theorem c5_offset_at_clamped (t : List Char) (p : Position) :
    (p.line < (getLineOffsets t).length → offsetAt t p = offsetAtClaimed t p) ∧
    ((getLineOffsets t).length ≤ p.line → offsetAt t p = t.length) := by
  constructor
  · intro h
    rw [offsetAt_eq, if_neg (show ¬((getLineOffsets t).length ≤ p.line) by omega)]
    unfold offsetAtClaimed
    rw [if_neg (show ¬((getLineOffsets t).length = 0) by omega)]
    rw [show min p.line ((getLineOffsets t).length - 1) = p.line from
      Nat.min_eq_left (by omega)]
  · intro h
    rw [offsetAt_eq, if_pos h]

/-- Witness for C5 (amended) at concrete inputs covering both branches. -/
theorem c5_offset_at_clamped_witness :
    offsetAt sampleText ⟨1, 0⟩ = offsetAtClaimed sampleText ⟨1, 0⟩ ∧
      offsetAt sampleText ⟨5, 9⟩ = sampleText.length :=
  ⟨(c5_offset_at_clamped sampleText ⟨1, 0⟩).1 (by decide),
   (c5_offset_at_clamped sampleText ⟨5, 9⟩).2 (by decide)⟩

/-- C6 counterexample: on `(a: Int b = 1)` the extractor yields three
parameters (the type branch requires a standalone `:` token, so `Int`
becomes a parameter of its own), not the claimed two. -/
theorem c6_counterexample : extractFunctionParams c6ParamListNode ≠ c6ClaimedParams := by
  intro h
  have h1 : (extractFunctionParams c6ParamListNode).length = 3 := rfl
  have h2 : c6ClaimedParams.length = 2 := rfl
  rw [h] at h1
  omega

/-- C6 amended: for the parameter list written `(a: Int b = 1)`, the extractor
yields three parameters: `a` (named, no declared type), `Int` (unnamed, no
type), and `b` (unnamed, no type, default value the literal 1). -/
theorem c6_extract_params_actual :
    extractFunctionParams c6ParamListNode =
      [⟨"a", none, none, true⟩,
       ⟨"Int", none, none, false⟩,
       ⟨"b", none, some (.literal (.lnum 1) none), false⟩] := rfl

/-! ### Map/set lemmas and claim C10 -/

theorem mapGet_cons {α : Type} (e : String × α) (rest : List (String × α)) (x : String) :
    mapGet (e :: rest) x = if e.1 = x then some e.2 else mapGet rest x := by
  unfold mapGet
  by_cases he : e.1 = x
  · rw [List.find?_cons_of_pos _ (by simp [he]), if_pos he]
    rfl
  · rw [List.find?_cons_of_neg _ (by simp [he]), if_neg he]

theorem mapGet_nil {α : Type} (x : String) : mapGet ([] : List (String × α)) x = none := rfl

theorem mapGet_mapSet {α : Type} (m : List (String × α)) (k : String) (v : α) (x : String) :
    mapGet (mapSet m k v) x = if x = k then some v else mapGet m x := by
  induction m with
  | nil =>
    unfold mapSet
    rw [mapGet_cons]
    by_cases hx : x = k
    · rw [if_pos (hx ▸ rfl), if_pos hx]
    · rw [if_neg (fun hk => hx hk.symm), if_neg hx, mapGet_nil]
  | cons e rest ih =>
    unfold mapSet
    by_cases he : e.1 = k
    · rw [if_pos he, mapGet_cons, mapGet_cons]
      by_cases hx : x = k
      · rw [if_pos (hx ▸ rfl), if_pos hx]
      · rw [if_neg (fun hk => hx hk.symm), if_neg hx, if_neg (fun hex => hx (he ▸ hex).symm)]
    · rw [if_neg he, mapGet_cons, mapGet_cons]
      by_cases hex : e.1 = x
      · have hxk : ¬(x = k) := fun hk => he (hex.trans hk)
        rw [if_pos hex, if_pos hex, if_neg hxk]
      · rw [if_neg hex, if_neg hex, ih]

theorem mapGet_mapUpdate {α : Type} (m : List (String × α)) (k : String) (f : α → α)
    (x : String) :
    mapGet (mapUpdate m k f) x = if x = k then (mapGet m k).map f else mapGet m x := by
  induction m with
  | nil =>
    by_cases hx : x = k
    · rw [if_pos hx]
      rfl
    · rw [if_neg hx]
      rfl
  | cons e rest ih =>
    show mapGet ((if e.1 = k then (e.1, f e.2) else e) :: mapUpdate rest k f) x =
      if x = k then (mapGet (e :: rest) k).map f else mapGet (e :: rest) x
    by_cases he : e.1 = k
    · rw [if_pos he, mapGet_cons]
      dsimp only
      by_cases hx : x = k
      · rw [if_pos (show e.1 = x from he.trans hx.symm), if_pos hx, mapGet_cons, if_pos he]
        rfl
      · rw [if_neg (show ¬(e.1 = x) from fun hh => hx (hh.symm.trans he)), ih,
          if_neg hx, if_neg hx, mapGet_cons,
          if_neg (show ¬(e.1 = x) from fun hh => hx (hh.symm.trans he))]
    · rw [if_neg he, mapGet_cons]
      by_cases hex : e.1 = x
      · have hxk : ¬(x = k) := fun hk => he (hex.trans hk)
        rw [if_pos hex, if_neg hxk, mapGet_cons, if_pos hex]
      · rw [if_neg hex, ih]
        by_cases hx : x = k
        · rw [if_pos hx, if_pos hx, mapGet_cons, if_neg he]
        · rw [if_neg hx, if_neg hx, mapGet_cons, if_neg hex]

theorem mapHas_eq_isSome {α : Type} (m : List (String × α)) (k : String) :
    mapHas m k = (mapGet m k).isSome := by
  unfold mapHas mapGet
  cases m.find? (fun e => e.1 = k) <;> rfl

theorem setAdd_mem (l : List String) (x y : String) :
    y ∈ setAdd l x ↔ y ∈ l ∨ y = x := by
  unfold setAdd
  by_cases hx : x ∈ l
  · rw [if_pos hx]
    constructor
    · exact Or.inl
    · rintro (h | rfl)
      · exact h
      · exact hx
  · rw [if_neg hx]
    simp

theorem scopeAddIfPresent_mem (t : SymbolTable) (sc key s name : String)
    (h : name ≠ key) :
    (name ∈ scopeMembers (SymbolTable.scopeAddIfPresent t sc key) s) ↔
      name ∈ scopeMembers t s := by
  unfold SymbolTable.scopeAddIfPresent
  by_cases hhas : mapHas t.scopes sc
  · rw [if_pos hhas]
    unfold scopeMembers
    dsimp only
    rw [mapGet_mapUpdate]
    by_cases hs : s = sc
    · rw [if_pos hs, hs]
      cases hget : mapGet t.scopes sc with
      | none => simp
      | some l =>
        simp only [Option.map_some', Option.getD_some]
        rw [setAdd_mem]
        exact ⟨fun hc => hc.elim id (fun he => absurd he h), Or.inl⟩
    · rw [if_neg hs]
  · rw [if_neg hhas]

theorem enterScope_scopes_mem (t : SymbolTable) (sc s name : String) :
    (name ∈ scopeMembers (t.enterScope sc) s) ↔ name ∈ scopeMembers t s := by
  unfold SymbolTable.enterScope
  by_cases hsc : sc = ""
  · rw [if_pos hsc]
  · rw [if_neg hsc]
    unfold scopeMembers
    dsimp only
    by_cases hhas : mapHas t.scopes sc
    · rw [if_pos hhas]
    · rw [if_neg hhas, mapGet_mapSet]
      by_cases hs : s = sc
      · rw [if_pos hs, hs]
        have : mapGet t.scopes sc = none := by
          rw [mapHas_eq_isSome] at hhas
          cases h : mapGet t.scopes sc
          · rfl
          · rw [h] at hhas
            simp at hhas
        rw [this]
        simp
      · rw [if_neg hs]

theorem string_ne_scoped (a b : String) : a ≠ a ++ "." ++ b := by
  intro h
  have := congrArg String.length h
  rw [String.length_append, String.length_append] at this
  have hdot : ("." : String).length = 1 := rfl
  omega

theorem addParameter_mem (t : SymbolTable) (pname : String) (ptype : Option String)
    (sc s name : String) (h : name = sc) :
    (name ∈ scopeMembers (t.addParameter pname ptype sc) s) ↔
      name ∈ scopeMembers t s := by
  unfold SymbolTable.addParameter
  by_cases hsc : sc = ""
  · rw [if_pos hsc]
  · rw [if_neg hsc]
    have hne : name ≠ sc ++ "." ++ pname := by
      rw [h]
      exact string_ne_scoped sc pname
    exact scopeAddIfPresent_mem _ sc _ s name hne

theorem fold_addParameter_mem (params : List Param) (fname s : String) :
    ∀ t : SymbolTable,
      (fname ∈ scopeMembers
        (params.foldl (fun (acc : SymbolTable) (p : Param) =>
          acc.addParameter p.name p.type fname) t) s) ↔
        fname ∈ scopeMembers t s := by
  induction params with
  | nil => intro t; rfl
  | cons p rest ih =>
    intro t
    rw [List.foldl_cons, ih]
    exact addParameter_mem t p.name p.type fname s fname rfl

theorem addFunction_eq_core (t : SymbolTable) (name : String) (params : List Param)
    (returnType : Option String) (node : HQLNode) :
    t.addFunction name params returnType node =
      (addFunctionCore t name params returnType node).exitScope := rfl

/-- C10: `exitScope` always clears the current scope instead of restoring the
one active before the matching `enterScope`; consequently `addFunction`
returns with no active scope and its trailing scope-membership update is dead
code: the bare function name is never added to any scope's membership set. -/
theorem c10_exit_scope_clears :
    (∀ t : SymbolTable, t.exitScope.currentScope = none) ∧
    (∀ (t : SymbolTable) (name : String) (params : List Param)
        (returnType : Option String) (node : HQLNode),
      (t.addFunction name params returnType node).currentScope = none ∧
      (∀ s : String,
        (name ∈ scopeMembers (t.addFunction name params returnType node) s) ↔
          name ∈ scopeMembers t s)) := by
  refine ⟨fun t => rfl, ?_⟩
  intro t name params returnType node
  rw [addFunction_eq_core]
  constructor
  · rfl
  · intro s
    have h1 : scopeMembers (addFunctionCore t name params returnType node).exitScope s =
        scopeMembers (addFunctionCore t name params returnType node) s := rfl
    rw [h1]
    unfold addFunctionCore
    rw [fold_addParameter_mem, enterScope_scopes_mem]
    exact Iff.rfl

/-- C2: when parsing the current text throws a `ParseError`, the controller
catches it at `parse` and stores it: the AST becomes none, the error is the
stored one, and the symbol table and spatial index are both left empty;
afterwards every query on the document returns the absent/empty value
(no stale data from a previous successful parse remains queryable). -/
theorem c2_parse_error_clears_state
    (parseFn : List Char → Except ParseError (List HQLNode))
    (st : DocState) (e : ParseError) (herr : parseFn st.content = .error e) :
    (docParse parseFn st).ast = none ∧
    (docParse parseFn st).parseError = some e ∧
    (docParse parseFn st).symbolTable = SymbolTable.empty ∧
    (docParse parseFn st).astIndex = ASTIndex.empty ∧
    (st.dirty = true →
      (docGetAST parseFn st).1 = none ∧
      (docGetParseError parseFn st).1 = some e ∧
      (docGetSymbolTable parseFn st).1 = SymbolTable.empty ∧
      (∀ pos : Position, (docGetNodeAtPosition parseFn st pos).1 = none) ∧
      (∀ p : HQLNode → Bool, (docFindNodes parseFn st p).1 = [])) := by
  have hparse : docParse parseFn st =
      { st with
        ast := none
        parseError := some e
        symbolTable := SymbolTable.empty
        astIndex := ASTIndex.empty } := by
    unfold docParse
    rw [herr]
  refine ⟨by rw [hparse], by rw [hparse], by rw [hparse], by rw [hparse], ?_⟩
  intro hdirty
  have hens : ensureParsed parseFn st = { docParse parseFn st with dirty := false } := by
    unfold ensureParsed
    rw [hdirty]
    rfl
  have hens2 : ensureParsed parseFn st =
      { st with
        ast := none
        parseError := some e
        symbolTable := SymbolTable.empty
        astIndex := ASTIndex.empty
        dirty := false } := by
    rw [hens, hparse]
  refine ⟨?_, ?_, ?_, ?_, ?_⟩
  · show (ensureParsed parseFn st).ast = none
    rw [hens2]
  · show (ensureParsed parseFn st).parseError = some e
    rw [hens2]
  · show (ensureParsed parseFn st).symbolTable = SymbolTable.empty
    rw [hens2]
  · intro pos
    show ASTIndex.getNodeAtPosition (ensureParsed parseFn st).astIndex pos = none
    rw [hens2]
    rfl
  · intro p
    show ASTIndex.findNodes p (ensureParsed parseFn st).astIndex = []
    rw [hens2]
    rfl

/-- Witness for C2 at a concrete dirty document whose parse fails. -/
theorem c2_parse_error_clears_state_witness :
    (docParse (alwaysFail ⟨"unexpected )", ⟨0, 0⟩⟩)
      { docZero with dirty := true }).ast = none ∧
    (docGetParseError (alwaysFail ⟨"unexpected )", ⟨0, 0⟩⟩)
      { docZero with dirty := true }).1 = some ⟨"unexpected )", ⟨0, 0⟩⟩ := by
  have h := c2_parse_error_clears_state (alwaysFail ⟨"unexpected )", ⟨0, 0⟩⟩)
    { docZero with dirty := true } ⟨"unexpected )", ⟨0, 0⟩⟩ rfl
  exact ⟨h.1, (h.2.2.2.2 rfl).2.1⟩

/-- C9: an update whose version is not strictly greater than the held version
is discarded: the state — text, version, dirty flag, AST, parse error, symbol
table, spatial index, cached offsets — is entirely unchanged. -/
theorem c9_stale_update_discarded (st : DocState) (c : List Char) (v : Int)
    (hv : v ≤ st.version) : docUpdate st c v = st := by
  unfold docUpdate
  rw [if_pos hv]

/-- Witness for C9 at a concrete state and stale version. -/
theorem c9_stale_update_discarded_witness :
    docUpdate docZero ['x'] 0 = docZero :=
  c9_stale_update_discarded docZero ['x'] 0 (by decide)

/-- C8: an accepted (strictly newer) update performs no parsing — it only
records the text and version, invalidates the offset cache and marks the
document dirty (AST, parse error, symbol table, index and the pipeline-run
counter are untouched); further updates still run nothing and keep the
document dirty; the next query (all five queries share `ensureParsed`) runs
the pipeline exactly once and clears the dirty flag, and repeated queries run
it no further time. -/
theorem c8_lazy_update_single_reparse
    (parseFn : List Char → Except ParseError (List HQLNode))
    (st : DocState) (n : Nat) (c : List Char) (v : Int)
    (hv : st.version < v) :
    (tUpdate (st, n) (c, v)).2 = n ∧
    (tUpdate (st, n) (c, v)).1.ast = st.ast ∧
    (tUpdate (st, n) (c, v)).1.parseError = st.parseError ∧
    (tUpdate (st, n) (c, v)).1.symbolTable = st.symbolTable ∧
    (tUpdate (st, n) (c, v)).1.astIndex = st.astIndex ∧
    (tUpdate (st, n) (c, v)).1.content = c ∧
    (tUpdate (st, n) (c, v)).1.version = v ∧
    (tUpdate (st, n) (c, v)).1.lineOffsets = none ∧
    (tUpdate (st, n) (c, v)).1.dirty = true ∧
    (∀ us : List (List Char × Int),
      (us.foldl tUpdate (tUpdate (st, n) (c, v))).2 = n ∧
      (us.foldl tUpdate (tUpdate (st, n) (c, v))).1.dirty = true) ∧
    (∀ td : DocState × Nat, td.1.dirty = true →
      (tEnsureParsed parseFn td).2 = td.2 + 1 ∧
      (tEnsureParsed parseFn td).1.dirty = false) ∧
    (∀ td : DocState × Nat,
      tEnsureParsed parseFn (tEnsureParsed parseFn td) = tEnsureParsed parseFn td) ∧
    (∀ st' : DocState,
      docGetAST parseFn st' = ((ensureParsed parseFn st').ast, ensureParsed parseFn st') ∧
      docGetParseError parseFn st' =
        ((ensureParsed parseFn st').parseError, ensureParsed parseFn st') ∧
      docGetSymbolTable parseFn st' =
        ((ensureParsed parseFn st').symbolTable, ensureParsed parseFn st') ∧
      (∀ pos, docGetNodeAtPosition parseFn st' pos =
        ((ensureParsed parseFn st').astIndex.getNodeAtPosition pos,
          ensureParsed parseFn st')) ∧
      (∀ p, docFindNodes parseFn st' p =
        (ASTIndex.findNodes p (ensureParsed parseFn st').astIndex,
          ensureParsed parseFn st'))) := by
  have hupd : tUpdate (st, n) (c, v) =
      ({ st with
        version := v
        content := c
        lineOffsets := none
        dirty := true }, n) := by
    unfold tUpdate docUpdate
    dsimp only
    rw [if_neg (by omega)]
  have hdirty_pres : ∀ td : DocState × Nat, td.1.dirty = true →
      ∀ u : List Char × Int, (tUpdate td u).1.dirty = true ∧ (tUpdate td u).2 = td.2 := by
    intro td hd u
    unfold tUpdate docUpdate
    by_cases hle : u.2 ≤ td.1.version
    · rw [if_pos hle]
      exact ⟨hd, rfl⟩
    · rw [if_neg hle]
      exact ⟨rfl, rfl⟩
  refine ⟨by rw [hupd], by rw [hupd], by rw [hupd], by rw [hupd], by rw [hupd],
    by rw [hupd], by rw [hupd], by rw [hupd], by rw [hupd], ?_, ?_, ?_, ?_⟩
  · intro us
    have hgen : ∀ (us : List (List Char × Int)) (td : DocState × Nat),
        td.1.dirty = true → (us.foldl tUpdate td).2 = td.2 ∧
          (us.foldl tUpdate td).1.dirty = true := by
      intro us
      induction us with
      | nil => intro td hd; exact ⟨rfl, hd⟩
      | cons u rest ih =>
        intro td hd
        rw [List.foldl_cons]
        obtain ⟨h1, h2⟩ := hdirty_pres td hd u
        obtain ⟨h3, h4⟩ := ih (tUpdate td u) h1
        exact ⟨h3.trans h2, h4⟩
    have hd : (tUpdate (st, n) (c, v)).1.dirty = true := by rw [hupd]
    obtain ⟨h1, h2⟩ := hgen us (tUpdate (st, n) (c, v)) hd
    refine ⟨h1.trans ?_, h2⟩
    rw [hupd]
  · intro td hd
    unfold tEnsureParsed
    rw [hd]
    exact ⟨rfl, rfl⟩
  · intro td
    unfold tEnsureParsed
    by_cases hd : td.1.dirty = true
    · rw [if_pos hd]
      dsimp only
      rw [if_neg (by simp)]
    · rw [if_neg hd, if_neg hd]
  · intro st'
    exact ⟨rfl, rfl, rfl, fun pos => rfl, fun p => rfl⟩

/-- Witness for C8 at a concrete document and update. -/
theorem c8_lazy_update_single_reparse_witness :
    (tUpdate (docZero, 0) (['('], 1)).2 = 0 ∧
    (tUpdate (docZero, 0) (['('], 1)).1.dirty = true ∧
    (tEnsureParsed (alwaysFail ⟨"open list", ⟨0, 0⟩⟩)
      (tUpdate (docZero, 0) (['('], 1))).2 = 1 := by
  have h := c8_lazy_update_single_reparse (alwaysFail ⟨"open list", ⟨0, 0⟩⟩)
    docZero 0 ['('] 1 (by decide)
  refine ⟨h.1, h.2.2.2.2.2.2.2.2.1, ?_⟩
  have hd := (h.2.2.2.2.2.2.2.2.2.2.1 (tUpdate (docZero, 0) (['('], 1))
    h.2.2.2.2.2.2.2.2.1).1
  rw [hd, h.1]

/-- C7 counterexample: the AST contains two top-level definitions of `x`, yet
after building the symbol table there is no unscoped entry for `x` at all —
the `let` binding walked in pass 2 re-keys the single `x` entry under the
generated let scope. -/
theorem c7_counterexample :
    (c7Ast.filter (isDefOf "x")).length = 2 ∧
    ((buildSymbolTable c7Ast).symbols.filter
      (fun e => decide (e.1 = "x" ∧ e.2.parentScope = none))).length = 0 := by
  constructor
  · rfl
  · rfl

theorem buildSymbolTable_eq_passes (ast : List HQLNode) :
    buildSymbolTable ast = (ast.foldl (fun st n => procRefs st none n) (pass1 ast, 0)).1 := rfl

theorem sameShape_refl (t : SymbolTable) : SameShape t t := ⟨rfl, rfl, rfl⟩

theorem sameShape_trans {a b c : SymbolTable} (h1 : SameShape a b) (h2 : SameShape b c) :
    SameShape a c :=
  ⟨h1.1.trans h2.1, h1.2.1.trans h2.2.1, h1.2.2.trans h2.2.2⟩

theorem addReferenceAt_shape (t : SymbolTable) (k : String) (node : HQLNode) :
    SameShape (t.addReferenceAt k node) t := by
  refine ⟨?_, rfl, rfl⟩
  unfold symbolsShape SymbolTable.addReferenceAt mapUpdate
  dsimp only
  rw [List.map_map]
  apply List.map_congr_left
  intro e _
  by_cases hk : e.1 = k
  · simp only [Function.comp_apply, if_pos hk]
    rfl
  · simp only [Function.comp_apply, if_neg hk]

theorem defnEnter_plain (t : SymbolTable) (ps : Option String) (es : List HQLNode)
    (h : (isSymNamed (es.get? 0) "defn" && (symNameOpt (es.get? 1)).isSome) = false) :
    defnEnter t ps es = (t, ps) := by
  unfold defnEnter
  split
  · rename_i f pos1 pos2 hg0 hg1
    rw [hg0, hg1] at h
    simp [isSymNamed, symNameOpt] at h
  · rfl

theorem scopeExit_self (st1 : SymbolTable × Nat) (scope : Option String) :
    scopeExit st1 scope scope = st1 := by
  cases scope with
  | none => rfl
  | some s =>
    show (if s ≠ "" ∧ some s ≠ some s then (st1.1.exitScope, st1.2) else st1) = st1
    rw [if_neg (fun hc => hc.2 rfl)]

theorem procRefs_list_plain (st : SymbolTable × Nat) (scope : Option String)
    (es : List HQLNode) (b : Bool) (p : Option Range)
    (hplain : plainHead es = true) :
    procRefs st scope (.list es b p) = procList st scope es := by
  have hnotlet : ∀ (lp : Option Range) (bels : List HQLNode) (bb : Bool)
      (blp : Option Range) (body : List HQLNode),
      es = HQLNode.symbol "let" lp :: HQLNode.list bels bb blp :: body → False := by
    intro lp bels bb blp body he
    subst he
    unfold plainHead at hplain
    simp [isSymNamed, isListOpt] at hplain
  rw [procRefs.eq_4 st scope es b p hnotlet]
  have hnd : (isSymNamed (es.get? 0) "defn" && (symNameOpt (es.get? 1)).isSome) = false := by
    unfold plainHead at hplain
    cases hh : (isSymNamed (es.get? 0) "defn" && (symNameOpt (es.get? 1)).isSome)
    · rfl
    · rw [hh] at hplain
      simp at hplain
  rw [defnEnter_plain st.1 scope es hnd]
  rw [scopeExit_self]

mutual

theorem procRefs_shape : ∀ (n : HQLNode) (st : SymbolTable × Nat) (scope : Option String),
    noScopeForms n = true →
    SameShape (procRefs st scope n).1 st.1 ∧ (procRefs st scope n).2 = st.2
  | .symbol name p, st, scope => by
    intro _
    rw [procRefs.eq_1]
    by_cases hs : isSpecialSymbol name = true
    · rw [if_pos hs]
      exact ⟨sameShape_refl _, rfl⟩
    · rw [if_neg hs]
      cases hf : st.1.findSymbolEntry name with
      | none => exact ⟨sameShape_refl _, rfl⟩
      | some e =>
        rcases e with ⟨k, info⟩
        exact ⟨addReferenceAt_shape _ _ _, rfl⟩
  | .literal v p, st, scope => by
    intro _
    rw [procRefs.eq_2]
    exact ⟨sameShape_refl _, rfl⟩
  | .list es b p, st, scope => by
    intro h
    have h2 : plainHead es = true ∧ noScopeFormsList es = true := by
      have : noScopeForms (.list es b p) = (plainHead es && noScopeFormsList es) := rfl
      rw [this] at h
      simp only [Bool.and_eq_true] at h
      exact h
    rw [procRefs_list_plain st scope es b p h2.1]
    exact procList_shape es st scope h2.2

theorem procList_shape : ∀ (ns : List HQLNode) (st : SymbolTable × Nat) (scope : Option String),
    noScopeFormsList ns = true →
    SameShape (procList st scope ns).1 st.1 ∧ (procList st scope ns).2 = st.2
  | [], st, scope => by
    intro _
    exact ⟨sameShape_refl _, rfl⟩
  | n :: rest, st, scope => by
    intro h
    have h2 : noScopeForms n = true ∧ noScopeFormsList rest = true := by
      have : noScopeFormsList (n :: rest) = (noScopeForms n && noScopeFormsList rest) := rfl
      rw [this] at h
      simp only [Bool.and_eq_true] at h
      exact h
    rw [show procList st scope (n :: rest) = procList (procRefs st scope n) scope rest from rfl]
    obtain ⟨s1, c1⟩ := procRefs_shape n st scope h2.1
    obtain ⟨s2, c2⟩ := procList_shape rest (procRefs st scope n) scope h2.2
    exact ⟨sameShape_trans s2 s1, c2.trans c1⟩

end

theorem fold_procRefs_shape (ast : List HQLNode) :
    ∀ (st : SymbolTable × Nat),
      (∀ n ∈ ast, noScopeForms n = true) →
      SameShape (ast.foldl (fun st n => procRefs st none n) st).1 st.1 := by
  induction ast with
  | nil => intro st _; exact sameShape_refl _
  | cons n rest ih =>
    intro st h
    rw [List.foldl_cons]
    obtain ⟨s1, _⟩ := procRefs_shape n st none (h n (by simp))
    exact sameShape_trans (ih (procRefs st none n) (fun m hm => h m (by simp [hm]))) s1

theorem isSymNamed_some {o : Option HQLNode} {s : String} (h : isSymNamed o s = true) :
    ∃ p, o = some (.symbol s p) := by
  cases o with
  | none => simp [isSymNamed] at h
  | some n =>
    cases n with
    | symbol nm p =>
      simp only [isSymNamed, decide_eq_true_eq] at h
      exact ⟨p, by rw [h]⟩
    | literal v p => simp [isSymNamed] at h
    | list es b p => simp [isSymNamed] at h

theorem symNameOpt_some {o : Option HQLNode} (h : (symNameOpt o).isSome = true) :
    ∃ m p, o = some (.symbol m p) := by
  cases o with
  | none => simp [symNameOpt] at h
  | some n =>
    cases n with
    | symbol nm p => exact ⟨nm, p, rfl⟩
    | literal v p => simp [symNameOpt] at h
    | list es b p => simp [symNameOpt] at h

theorem addVariable_none (t : SymbolTable) (name : String) (node : HQLNode)
    (ty : Option String) (hcs : t.currentScope = none) :
    t.addVariable name node ty =
      { t with symbols := mapSet t.symbols name ⟨name, .kVariable, node, none, ty, none, none, []⟩ } := by
  unfold SymbolTable.addVariable
  rw [hcs]

theorem processDefinition_simple (t : SymbolTable) (n : HQLNode)
    (h : isSimpleDefForm n = true) (hcs : t.currentScope = none) :
    isDefOrDefnNode n = true ∧
      processDefinition t n =
        { t with symbols := mapSet t.symbols (defNameOf n) (varInfo (defNameOf n) n) } := by
  rcases n with _ | _ | ⟨es, b, p⟩
  · simp [isSimpleDefForm] at h
  · simp [isSimpleDefForm] at h
  rcases es with _ | ⟨e0, es1⟩
  · simp [isSimpleDefForm, isSymNamed] at h
  rcases es1 with _ | ⟨e1, es2⟩
  · simp [isSimpleDefForm] at h
  have h3 : (decide (3 ≤ (e0 :: e1 :: es2).length) && isSymNamed ((e0 :: e1 :: es2).get? 0) "def"
      && (symNameOpt ((e0 :: e1 :: es2).get? 1)).isSome) = true := h
  simp only [Bool.and_eq_true, decide_eq_true_eq] at h3
  obtain ⟨⟨hlen, hdef⟩, hname⟩ := h3
  obtain ⟨p0, hg0⟩ := isSymNamed_some hdef
  obtain ⟨m, p1, hg1⟩ := symNameOpt_some hname
  simp only [List.get?_cons_zero, List.get?_cons_succ] at hg0 hg1
  injection hg0 with hg0
  injection hg1 with hg1
  subst hg0
  subst hg1
  constructor
  · show (decide (2 ≤ (HQLNode.symbol "def" p0 :: HQLNode.symbol m p1 :: es2).length) &&
      (match (HQLNode.symbol "def" p0 :: HQLNode.symbol m p1 :: es2).get? 0 with
       | some (.symbol s _) => decide (s = "def" ∨ s = "defn" ∨ s = "defenum")
       | _ => false)) = true
    simp only [List.get?_cons_zero, List.length_cons, Bool.and_eq_true, decide_eq_true_eq]
    exact ⟨by omega, Or.inl trivial⟩
  · show (if (HQLNode.symbol "def" p0 :: HQLNode.symbol m p1 :: es2).length ≥ 3 then
        t.addVariable m (HQLNode.list (HQLNode.symbol "def" p0 :: HQLNode.symbol m p1 :: es2) b p) none
      else t) = _
    rw [if_pos (by simp only [List.length_cons] at hlen ⊢; omega)]
    rw [addVariable_none _ _ _ _ hcs]
    rfl

theorem mapGet_none_of_not_mem {α : Type} (m : List (String × α)) (x : String)
    (h : x ∉ m.map Prod.fst) : mapGet m x = none := by
  induction m with
  | nil => rfl
  | cons e rest ih =>
    simp only [List.map_cons, List.mem_cons] at h
    push_neg at h
    rw [mapGet_cons, if_neg (fun he => h.1 (he.symm)), ih h.2]

theorem mapSet_keys_mem {α : Type} (m : List (String × α)) (k : String) (v : α)
    (x : String) (h : x ∈ (mapSet m k v).map Prod.fst) :
    x ∈ m.map Prod.fst ∨ x = k := by
  induction m with
  | nil =>
    simp [mapSet] at h
    exact Or.inr h
  | cons e rest ih =>
    unfold mapSet at h
    by_cases he : e.1 = k
    · rw [if_pos he] at h
      simp only [List.map_cons, List.mem_cons] at h ⊢
      rcases h with rfl | h
      · exact Or.inr rfl
      · exact Or.inl (Or.inr h)
    · rw [if_neg he] at h
      simp only [List.map_cons, List.mem_cons] at h ⊢
      rcases h with rfl | h
      · exact Or.inl (Or.inl rfl)
      · rcases ih h with h2 | h2
        · exact Or.inl (Or.inr h2)
        · exact Or.inr h2

theorem mapSet_keys_nodup {α : Type} (m : List (String × α)) (k : String) (v : α)
    (h : (m.map Prod.fst).Nodup) : ((mapSet m k v).map Prod.fst).Nodup := by
  induction m with
  | nil => simp [mapSet]
  | cons e rest ih =>
    unfold mapSet
    simp only [List.map_cons, List.nodup_cons] at h
    by_cases he : e.1 = k
    · rw [if_pos he]
      simp only [List.map_cons, List.nodup_cons]
      exact ⟨he ▸ h.1, h.2⟩
    · rw [if_neg he]
      simp only [List.map_cons, List.nodup_cons]
      refine ⟨?_, ih h.2⟩
      intro hmem
      rcases mapSet_keys_mem rest k v e.1 hmem with h2 | h2
      · exact h.1 h2
      · exact he h2

theorem mem_key_mapGet {α : Type} (m : List (String × α)) (x : String)
    (hnd : (m.map Prod.fst).Nodup) :
    ∀ e ∈ m, e.1 = x → mapGet m x = some e.2 := by
  induction m with
  | nil => intro e he; exact absurd he (List.not_mem_nil e)
  | cons hd rest ih =>
    intro e he hex
    simp only [List.map_cons, List.nodup_cons] at hnd
    rcases List.mem_cons.mp he with rfl | he2
    · rw [mapGet_cons, if_pos hex]
    · rw [mapGet_cons]
      have hne : ¬(hd.1 = x) := by
        intro hh
        apply hnd.1
        rw [hh]
        exact List.mem_map.mpr ⟨e, he2, hex⟩
      rw [if_neg hne]
      exact ih hnd.2 e he2 hex

theorem filter_key_count {α : Type} (m : List (String × α)) (x : String)
    (P : α → Prop) [DecidablePred P] (hnd : (m.map Prod.fst).Nodup) :
    (m.filter (fun e => decide (e.1 = x ∧ P e.2))).length =
      (match mapGet m x with
       | some v => if P v then 1 else 0
       | none => 0) := by
  induction m with
  | nil => rfl
  | cons e rest ih =>
    simp only [List.map_cons, List.nodup_cons] at hnd
    rw [mapGet_cons, List.filter_cons]
    by_cases hex : e.1 = x
    · rw [if_pos hex]
      have hmatch : (match some e.2 with
          | some v => if P v then 1 else 0
          | none => 0) = if P e.2 then 1 else 0 := rfl
      rw [hmatch]
      have hrest : mapGet rest x = none := by
        apply mapGet_none_of_not_mem
        intro hmem
        apply hnd.1
        rw [hex]
        exact hmem
      have hrest2 : (rest.filter (fun e => decide (e.1 = x ∧ P e.2))).length = 0 := by
        rw [ih hnd.2, hrest]
      by_cases hp : P e.2
      · rw [if_pos (by simp [hex, hp]), if_pos hp]
        simp only [List.length_cons]
        omega
      · rw [if_neg (by simp [hex, hp]), if_neg hp]
        exact hrest2
    · rw [if_neg hex, if_neg (by simp [hex])]
      exact ih hnd.2

theorem getLast?_cons_match {α : Type} (a : α) (l : List α) :
    (a :: l).getLast? =
      (match l.getLast? with
       | some y => some y
       | none => some a) := by
  induction l generalizing a with
  | nil => rfl
  | cons b m ih =>
    rw [List.getLast?_cons_cons, ih b]
    cases m.getLast? <;> rfl

theorem pass1_eq (ast : List HQLNode) : pass1 ast = ast.foldl stepDef SymbolTable.empty := rfl

theorem simpleDefForm_shape (n : HQLNode) (h : isSimpleDefForm n = true) :
    ∃ p0 m p1 es2 b p,
      n = HQLNode.list (HQLNode.symbol "def" p0 :: HQLNode.symbol m p1 :: es2) b p ∧
        defNameOf n = m ∧ 1 ≤ es2.length := by
  rcases n with _ | _ | ⟨es, b, p⟩
  · simp [isSimpleDefForm] at h
  · simp [isSimpleDefForm] at h
  rcases es with _ | ⟨e0, es1⟩
  · simp [isSimpleDefForm, isSymNamed] at h
  rcases es1 with _ | ⟨e1, es2⟩
  · simp [isSimpleDefForm] at h
  have h3 : (decide (3 ≤ (e0 :: e1 :: es2).length) && isSymNamed ((e0 :: e1 :: es2).get? 0) "def"
      && (symNameOpt ((e0 :: e1 :: es2).get? 1)).isSome) = true := h
  simp only [Bool.and_eq_true, decide_eq_true_eq] at h3
  obtain ⟨⟨hlen, hdef⟩, hname⟩ := h3
  obtain ⟨p0, hg0⟩ := isSymNamed_some hdef
  obtain ⟨m, p1, hg1⟩ := symNameOpt_some hname
  simp only [List.get?_cons_zero, List.get?_cons_succ] at hg0 hg1
  injection hg0 with hg0
  injection hg1 with hg1
  subst hg0
  subst hg1
  refine ⟨p0, m, p1, es2, b, p, rfl, rfl, ?_⟩
  simp only [List.length_cons] at hlen
  omega

theorem isDefOf_simple (n : HQLNode) (h : isSimpleDefForm n = true) (x : String) :
    isDefOf x n = true ↔ defNameOf n = x := by
  obtain ⟨p0, m, p1, es2, b, p, hn, hdn, hlen⟩ := simpleDefForm_shape n h
  subst hn
  rw [hdn]
  show (decide (3 ≤ (HQLNode.symbol "def" p0 :: HQLNode.symbol m p1 :: es2).length) &&
      isSymNamed ((HQLNode.symbol "def" p0 :: HQLNode.symbol m p1 :: es2).get? 0) "def" &&
      decide (symNameOpt ((HQLNode.symbol "def" p0 :: HQLNode.symbol m p1 :: es2).get? 1) = some x)) =
      true ↔ m = x
  simp only [List.get?_cons_zero, List.get?_cons_succ, List.length_cons, isSymNamed, symNameOpt,
    Bool.and_eq_true, decide_eq_true_eq]
  constructor
  · rintro ⟨_, h2⟩
    exact Option.some.inj h2
  · intro hx
    exact ⟨⟨by omega, trivial⟩, by rw [hx]⟩

theorem pass1_fold_spec : ∀ (ast : List HQLNode) (t : SymbolTable),
    (∀ n ∈ ast, isSimpleDefForm n = true) → t.currentScope = none →
    (ast.foldl stepDef t).currentScope = none ∧
    (ast.foldl stepDef t).scopes = t.scopes ∧
    ((t.symbols.map Prod.fst).Nodup → (((ast.foldl stepDef t).symbols).map Prod.fst).Nodup) ∧
    (∀ x, mapGet (ast.foldl stepDef t).symbols x =
      (match (ast.filter (isDefOf x)).getLast? with
       | some n => some (varInfo x n)
       | none => mapGet t.symbols x)) := by
  intro ast
  induction ast with
  | nil =>
    intro t _ hcs
    exact ⟨hcs, rfl, id, fun x => rfl⟩
  | cons n rest ih =>
    intro t hall hcs
    obtain ⟨hdefn, hstep⟩ := processDefinition_simple t n (hall n (by simp)) hcs
    have hstepeq : stepDef t n =
        { t with symbols := mapSet t.symbols (defNameOf n) (varInfo (defNameOf n) n) } := by
      unfold stepDef
      rw [if_pos hdefn, hstep]
    rw [List.foldl_cons, hstepeq]
    obtain ⟨ih1, ih2, ih3, ih4⟩ := ih
      { t with symbols := mapSet t.symbols (defNameOf n) (varInfo (defNameOf n) n) }
      (fun m hm => hall m (by simp [hm])) hcs
    refine ⟨ih1, ih2, ?_, ?_⟩
    · intro hnd
      exact ih3 (mapSet_keys_nodup t.symbols _ _ hnd)
    · intro x
      rw [ih4 x, List.filter_cons]
      by_cases hdx : isDefOf x n = true
      · rw [if_pos hdx, getLast?_cons_match]
        have hdn : defNameOf n = x := (isDefOf_simple n (hall n (by simp)) x).mp hdx
        cases hlast : (rest.filter (isDefOf x)).getLast? with
        | some y => rfl
        | none =>
          show mapGet (mapSet t.symbols (defNameOf n) (varInfo (defNameOf n) n)) x =
            some (varInfo x n)
          rw [mapGet_mapSet, if_pos hdn.symm, hdn]
      · rw [if_neg hdx]
        cases hlast : (rest.filter (isDefOf x)).getLast? with
        | some y => rfl
        | none =>
          show mapGet (mapSet t.symbols (defNameOf n) (varInfo (defNameOf n) n)) x =
            mapGet t.symbols x
          have hne : ¬(x = defNameOf n) := by
            intro hx
            exact hdx ((isDefOf_simple n (hall n (by simp)) x).mpr hx.symm)
          rw [mapGet_mapSet, if_neg hne]

theorem count_transfer (l : List (String × SymbolInfo)) (x : String) :
    (l.filter (fun e => decide (e.1 = x ∧ e.2.parentScope = none))).length =
      ((l.map (fun e => (e.1, eraseRefs e.2))).filter
        (fun e => decide (e.1 = x ∧ e.2.parentScope = none))).length := by
  rw [List.filter_map, List.length_map]
  rfl

theorem eraseRefs_parentScope (i : SymbolInfo) : (eraseRefs i).parentScope = i.parentScope := rfl

theorem eraseRefs_node (i : SymbolInfo) : (eraseRefs i).node = i.node := rfl

theorem eraseRefs_kind (i : SymbolInfo) : (eraseRefs i).kind = i.kind := rfl

theorem eraseRefs_name (i : SymbolInfo) : (eraseRefs i).name = i.name := rfl

/-- C7 amended: when every top-level form is a plain `(def name …)` and no
`let`/`defn` scope form occurs anywhere, re-defining a global name leaves
exactly one unscoped entry for that name, pointing at the last definition
(the C7 counterexample shows a later `let` re-binding of the same name
destroys this). -/
theorem c7_last_definition_wins (ast : List HQLNode) (x : String)
    (hall : ∀ n ∈ ast, isSimpleDefForm n = true)
    (hns : ∀ n ∈ ast, noScopeForms n = true)
    (hx : 2 ≤ (ast.filter (isDefOf x)).length) :
    ((buildSymbolTable ast).symbols.filter
        (fun e => decide (e.1 = x ∧ e.2.parentScope = none))).length = 1 ∧
    (∀ e ∈ (buildSymbolTable ast).symbols, e.1 = x →
      e.2.parentScope = none ∧ e.2.kind = SymbolKind.kVariable ∧ e.2.name = x ∧
        (ast.filter (isDefOf x)).getLast? = some e.2.node) := by
  obtain ⟨hcs1, hsc1, hnd1, hget1⟩ := pass1_fold_spec ast SymbolTable.empty hall rfl
  have hnd : ((pass1 ast).symbols.map Prod.fst).Nodup := by
    rw [pass1_eq]
    exact hnd1 (by simp [SymbolTable.empty])
  obtain ⟨nlast, hlast⟩ : ∃ n, (ast.filter (isDefOf x)).getLast? = some n := by
    cases hl : (ast.filter (isDefOf x)).getLast? with
    | some n => exact ⟨n, rfl⟩
    | none =>
      rw [List.getLast?_eq_none_iff] at hl
      rw [hl] at hx
      simp at hx
  have hget : mapGet (pass1 ast).symbols x = some (varInfo x nlast) := by
    rw [pass1_eq, hget1 x, hlast]
  have hshape : SameShape (buildSymbolTable ast) (pass1 ast) := by
    rw [buildSymbolTable_eq_passes]
    exact fold_procRefs_shape ast ((pass1 ast, 0) : SymbolTable × Nat) hns
  obtain ⟨hsym, _, _⟩ := hshape
  constructor
  · rw [count_transfer (buildSymbolTable ast).symbols x]
    have hsym2 : symbolsShape (buildSymbolTable ast) = symbolsShape (pass1 ast) := hsym
    unfold symbolsShape at hsym2
    rw [hsym2]
    rw [← count_transfer (pass1 ast).symbols x]
    rw [filter_key_count (pass1 ast).symbols x (fun i => i.parentScope = none) hnd]
    rw [hget]
    rfl
  · intro e he hex
    have hmem : (e.1, eraseRefs e.2) ∈ symbolsShape (buildSymbolTable ast) :=
      List.mem_map.mpr ⟨e, he, rfl⟩
    rw [hsym] at hmem
    obtain ⟨e2, he2, hstrip⟩ := List.mem_map.mp hmem
    have h1 : e2.1 = x := by
      have := congrArg Prod.fst hstrip
      simp only at this
      rw [this, hex]
    have h2 := mem_key_mapGet (pass1 ast).symbols x hnd e2 he2 h1
    rw [hget] at h2
    have h3 : e2.2 = varInfo x nlast := Option.some.inj h2.symm
    have h4 : eraseRefs e.2 = varInfo x nlast := by
      have h5 := congrArg Prod.snd hstrip
      simp only at h5
      rw [h3] at h5
      rw [← h5]
      rfl
    refine ⟨?_, ?_, ?_, ?_⟩
    · rw [← eraseRefs_parentScope, h4]
      rfl
    · rw [← eraseRefs_kind, h4]
      rfl
    · rw [← eraseRefs_name, h4]
      rfl
    · rw [← eraseRefs_node, h4, hlast]
      rfl

/-- Witness for C7 (amended) at the concrete `(def x 1) (def x 2)` input. -/
theorem c7_last_definition_wins_witness :
    ((buildSymbolTable c7SimpleAst).symbols.filter
      (fun e => decide (e.1 = "x" ∧ e.2.parentScope = none))).length = 1 :=
  (c7_last_definition_wins c7SimpleAst "x" (by decide) (by decide) (by decide)).1
